import Mathlib

/-!
# Verification of the Folios document server core

A shallow embedding, in Lean 4, of the parsing, cataloguing and diffing
core of `src/folios/server.py`, together with proofs of the behavioural
claims stated for it.

Modelling conventions:

* Python strings are Lean `String`s; line splitting models `'\n'` as the
  only line terminator (the CPython `str.splitlines` also splits on
  `\v`, `\f`, `\r` and a few Unicode terminators; none of the proved
  claims depends on those).
* `str.strip()` is `String.trim` (ASCII whitespace; the claims do not
  involve non-ASCII whitespace).
* `\d` in the filename regex and `str.isdigit` are modelled as ASCII
  digits (CPython additionally accepts non-ASCII decimal digits; the
  claims do not involve them).
* Python `dict`s are association lists with insertion order and
  overwrite-in-place semantics (`assocInsert`).
* Filesystem state is an explicit `Dir` value.  I/O faults of the
  scanning code (`OSError` from `Path.exists`, `Path.glob`,
  `Path.is_file`, `Path.read_text`) are injectable flags, so the
  error-absorption behaviour of `get_all_document_files` is provable.
  Functions that let `OSError` escape are modelled only on the
  fault-free part of the state they actually inspect.
* Fallible Python functions (those that `raise`) return `Except`.
-/

namespace Folios

/-! ## Generic helpers: Python-like primitives -/

/-- `enumerate(l, start := n)`: pair each element with its index, starting
at `n`. -/
def enumFrom {α : Type} : Nat → List α → List (Nat × α)
  | _, [] => []
  | n, x :: xs => (n, x) :: enumFrom (n + 1) xs

/-- Keep the first occurrence of each element, preserving order (the
`seen`-set idiom used in `diff_document_versions`). -/
def dedupFirstAux (seen : List String) : List String → List String
  | [] => []
  | x :: xs =>
    if x ∈ seen then dedupFirstAux seen xs
    else x :: dedupFirstAux (x :: seen) xs

def dedupFirst (l : List String) : List String := dedupFirstAux [] l

/-- Python `str.strip()` (ASCII whitespace) on a character list. -/
def trimChars (cs : List Char) : List Char :=
  ((cs.dropWhile Char.isWhitespace).reverse.dropWhile Char.isWhitespace).reverse

/-- Python `str.strip()` (ASCII whitespace). -/
def pyStrip (s : String) : String := String.mk (trimChars s.data)

/-- `str.startswith` on the underlying character lists. -/
def strStartsWith (s pre : String) : Bool := pre.data.isPrefixOf s.data

/-- `str.endswith` on the underlying character lists. -/
def strEndsWith (s suf : String) : Bool := suf.data.reverse.isPrefixOf s.data.reverse

/-- `str.lower` restricted to ASCII case mapping. -/
def strToLower (s : String) : String := String.mk (s.data.map Char.toLower)

/-- Accumulator loop for splitting a string at every occurrence of a
character (Python `str.split(c)` semantics: `n` separators yield
`n + 1` parts, empty parts included). -/
def splitCharAux (c : Char) : List Char → List Char → List String
  | [], acc => [String.mk acc.reverse]
  | x :: xs, acc =>
    if x = c then String.mk acc.reverse :: splitCharAux c xs []
    else splitCharAux c xs (x :: acc)

/-- Split a string at every occurrence of a character. -/
def splitChar (c : Char) (s : String) : List String := splitCharAux c s.data []

/-- Python `str.splitlines()` restricted to `'\n'` terminators: split on
newlines, with no trailing empty line for a terminating newline and
`[]` for the empty string. -/
def pySplitlines (s : String) : List String :=
  let parts := splitChar '\n' s
  if parts.getLast? = some "" then parts.dropLast else parts

/-- Python `str.rstrip()` (ASCII whitespace). -/
def pyRstrip (s : String) : String :=
  String.mk ((s.data.reverse.dropWhile Char.isWhitespace).reverse)


/-- Split a character list at the first occurrence of `sep`, returning
the part before and the part after it, or `none` when absent. -/
def splitOnFirst (sep : List Char) : List Char → Option (List Char × List Char)
  | [] => if sep = [] then some ([], []) else none
  | c :: cs =>
    if sep.isPrefixOf (c :: cs) then some ([], (c :: cs).drop sep.length)
    else match splitOnFirst sep cs with
      | some (a, b) => some (c :: a, b)
      | none => none

/-- Python `content.split("---", 2)`: at most two splits on the literal
delimiter, hence one, two or three parts. -/
def pySplit3 (s : String) : List String :=
  match splitOnFirst ("---".data) s.data with
  | none => [s]
  | some (a, rest) =>
    match splitOnFirst ("---".data) rest with
    | none => [String.mk a, String.mk rest]
    | some (b, rest2) => [String.mk a, String.mk b, String.mk rest2]

/-- Association list insert with Python-`dict` semantics: an existing key
is updated in place (keeping its position), a new key is appended. -/
def assocInsert {α : Type} : List (String × α) → String → α → List (String × α)
  | [], k, v => [(k, v)]
  | kv :: rest, k, v =>
    if kv.1 = k then (k, v) :: rest else kv :: assocInsert rest k v

/-- Association list lookup (Python `dict.get`). -/
def assocLookup {α : Type} (m : List (String × α)) (k : String) : Option α :=
  (m.find? (fun kv => kv.1 = k)).map (fun kv => kv.2)

/-- Python truthiness of an optional string argument (`if status:`):
`None` and the empty string are falsy. -/
def pyTruthy : Option String → Bool
  | none => false
  | some s => s ≠ ""

/-! ## Frontmatter and heading parsing (`server.py` lines 107-186) -/

/-- A parsed frontmatter value: `int(value)` when the trimmed unquoted
value `isdigit()`, otherwise the string itself. -/
inductive FMValue : Type
  | int (n : Nat)
  | str (s : String)
deriving DecidableEq, Repr

/-- The single-quote character, written via its code point. -/
def squote : String := String.singleton (Char.ofNat 39)

/-- Strip one pair of symmetric surrounding quotes, as in
`parse_frontmatter` (`value[1:-1]` when the value both starts and ends
with `"` or with `'`). -/
def stripQuotes (v : String) : String :=
  if (strStartsWith v "\"" && strEndsWith v "\"") ||
      (strStartsWith v squote && strEndsWith v squote) then
    (v.drop 1).dropRight 1
  else v

/-- Python `str.isdigit` restricted to ASCII digits: nonempty and all
digits. -/
def isPyDigits (v : String) : Bool :=
  !v.isEmpty && v.data.all Char.isDigit

/-- Decimal value of a digit list (what `int()` computes on an
`isdigit()` string). -/
def digitsToNat (ds : List Char) : Nat :=
  ds.foldl (fun n c => n * 10 + (c.toNat - 48)) 0

/-- Process one line of the frontmatter block, extending the mapping
(blank lines, `#` comments and `:`-less lines are skipped; key and value
are trimmed; symmetric quotes stripped; digit values coerced to int;
a duplicate key overwrites in place). -/
def parseFMLine (m : List (String × FMValue)) (line : String) : List (String × FMValue) :=
  let line := pyStrip line
  if line.data.isEmpty then m
  else if strStartsWith line "#" then m
  else if !(line.data.contains ':') then m
  else
    match splitOnFirst [':'] line.data with
    | none => m
    | some (k, v) =>
      let key := pyStrip (String.mk k)
      let value := stripQuotes (pyStrip (String.mk v))
      if isPyDigits value then assocInsert m key (.int (digitsToNat value.data))
      else assocInsert m key (.str value)

/-- The middle (frontmatter) block scanned line by line. -/
def parseFMLines (text : String) : List (String × FMValue) :=
  (pySplitlines text).foldl parseFMLine []

/-- `parse_frontmatter` (`server.py` lines 107-152): split frontmatter
from body.  Content not starting with `---` is all body with an empty
mapping; a started but unclosed delimiter is a `ValueError`. -/
def parse_frontmatter (content : String) :
    Except String (List (String × FMValue) × String) :=
  if !(strStartsWith content "---") then .ok ([], pyStrip content)
  else
    match pySplit3 content with
    | [_, b, c] => .ok (parseFMLines (pyStrip b), pyStrip c)
    | _ => .error "Invalid frontmatter format: missing closing delimiter"

/-- One line matched against `TITLE_PATTERN = ^#\s+(.+)$`: a `#`, at
least one whitespace character, then at least one character; the
returned title is the stripped remainder.  (The CPython regex, run
in MULTILINE mode over the whole body, can additionally let `\s+`
absorb newlines; the claims proved here do not depend on that.) -/
def h1Title? (line : String) : Option String :=
  if strStartsWith line "#" then
    let rest := line.drop 1
    match rest.data with
    | c :: _ :: _ => if c.isWhitespace then some (pyStrip rest) else none
    | _ => none
  else none

/-- One line matched against `HEADING_PATTERN = ^##\s+(.+)$` (second
level headings), by the same analysis as `h1Title?`.  A line starting
`###` fails because the character after `##` is not whitespace. -/
def h2Title? (line : String) : Option String :=
  if strStartsWith line "##" then
    let rest := line.drop 2
    match rest.data with
    | c :: _ :: _ => if c.isWhitespace then some (pyStrip rest) else none
    | _ => none
  else none

/-- `parse_title` (`server.py` lines 155-170): first H1 heading of the
body; its absence is a hard `ValueError`. -/
def parse_title (body : String) : Except String String :=
  match (pySplitlines body).findSome? h1Title? with
  | some t => .ok t
  | none => .error "Document missing title (H1 heading)"

/-- `parse_chapters` (`server.py` lines 173-186): the ordered list of H2
heading titles of the body. -/
def parse_chapters (body : String) : List String :=
  (pySplitlines body).filterMap h2Title?

/-- The scan for the first line holding a non-whitespace character,
returning that line and its 0-based distance into the list; `none`
when every remaining line is all-whitespace.  This is
the continuation of a `HEADING_PATTERN` match whose `\s+` run crosses
newlines: the run ends at the first non-whitespace character, and the
greedy `(.+)$` then captures the rest of that character's line. -/
def findNonWSLine : List String → Option (String × Nat)
  | [] => none
  | l :: ls =>
    if l.data.any (fun c => !c.isWhitespace) then some (l, 0)
    else (findNonWSLine ls).map (fun r => (r.1, r.2 + 1))

/-- `HEADING_PATTERN.finditer(body)` over the `'\n'`-split lines of the
body, as the list of `(group(1).strip(), start-line-index)` pairs.  A
match must start at a line beginning `"##"` (the `^` of the multiline
pattern sits at a line start and `#` is not whitespace, so `\s+` can
never carry a match across a `"##"`).  Writing `rest` for the line
after the `"##"`:

* `rest` opening with a non-whitespace character fails `\s+` — no
  match, and the scan resumes at the next line;
* `rest` opening with whitespace (or empty, the newline then feeding
  `\s+`) and holding a non-whitespace character: `\s+` stops inside
  the line and `(.+)$` captures to the line end, so the stripped group
  is `pyStrip rest` and the match ends at this line's end;
* otherwise `\s+` crosses the newline into the following lines; the
  first line with a non-whitespace character hosts the capture, the
  stripped group is that whole line stripped, and the match consumes
  through it;
* when no non-whitespace character follows at all, backtracking still
  yields a match (with an all-whitespace, hence stripped-empty, group)
  exactly when some whitespace character other than the first sits
  after the `"##"` and is not a newline: that is, `rest` has length at
  least 2 or some later line is non-empty.  Everything after is
  whitespace, so the scan is over. -/
def finditerH2 (i : Nat) : List String → List (String × Nat)
  | [] => []
  | l :: ls =>
    if strStartsWith l "##" then
      let rest := l.drop 2
      if rest.data.head?.all Char.isWhitespace then
        if rest.data.any (fun c => !c.isWhitespace) then
          (pyStrip rest, i) :: finditerH2 (i + 1) ls
        else
          match findNonWSLine ls with
          | some (l2, m) => (pyStrip l2, i) :: finditerH2 (i + m + 2) (ls.drop (m + 1))
          | none =>
            if 2 ≤ rest.length ∨ ls.any (fun l2 => l2 ≠ "") then [("", i)]
            else []
      else finditerH2 (i + 1) ls
    else finditerH2 (i + 1) ls
termination_by lines => lines.length
decreasing_by
  all_goals simp only [List.length_cons, List.length_drop]
  all_goals omega

/-- `extract_chapter_content` (`server.py` lines 189-241): content of one
H2 section, from the start of the line where its `HEADING_PATTERN`
match begins to the start line of the next match or the end of the
document, right-stripped.  Matching against the stripped group is exact
first, then case-insensitive; the first occurrence wins.  `None` when
the body has no matches or no match's title fits.  The CPython version
slices the body at the character offsets `match.start()` of the
matches; those offsets are always line starts, so the slice is the
`'\n'`-join of the corresponding line span, with the trailing newline
removed by the final `rstrip`. -/
def extract_chapter_content (body chapter_title : String) :
    Option (String × String) :=
  let lines := splitChar '\n' body
  let headings := finditerH2 0 lines
  if headings.isEmpty then none
  else
    let tIdx? :=
      match headings.findIdx? (fun h => h.1 = chapter_title) with
      | some i => some i
      | none =>
        headings.findIdx? (fun h => strToLower h.1 = strToLower chapter_title)
    match tIdx? with
    | none => none
    | some i =>
      let hd := headings.getD i ("", 0)
      let startLine := hd.2
      let endLine :=
        if i + 1 < headings.length then (headings.getD (i + 1) ("", 0)).2
        else lines.length
      some (hd.1,
        pyRstrip (String.intercalate "\n" ((lines.take endLine).drop startLine)))

/-! ## Chapter boundaries (`server.py` lines 244-306) -/

/-- The H2 heading (title, 1-indexed line number) pairs of a line list. -/
def h2Positions (lines : List String) : List (String × Nat) :=
  (enumFrom 1 lines).filterMap (fun p => (h2Title? p.2).map (fun t => (t, p.1)))

/-- The per-chapter spans of the loop in `get_chapter_boundaries`: each
H2 heading opens a span ending one line before the next heading, the
last one ending at the last line of the file. -/
def chapterSpans (total : Nat) : List (String × Nat) → List (String × Nat × Nat)
  | [] => []
  | [(t, s)] => [(t, s, total)]
  | (t, s) :: (t2, s2) :: rest =>
    (t, s, s2 - 1) :: chapterSpans total ((t2, s2) :: rest)

/-- The prefix of the spans produced by the loop in
`get_chapter_boundaries` for the headings strictly before a given
heading: each span ends one line before the next heading's start, the
last one ending one line before `nxt`, the start of the heading that
follows the prefix. -/
def spansTo (nxt : Nat) : List (String × Nat) → List (String × Nat × Nat)
  | [] => []
  | [(t, s)] => [(t, s, nxt - 1)]
  | (t, s) :: (t2, s2) :: rest => (t, s, s2 - 1) :: spansTo nxt ((t2, s2) :: rest)

/-- `get_chapter_boundaries` (`server.py` lines 244-288):
`(name, start_line, end_line)` triples, 1-indexed, over the full raw
content.  Empty content gives a single `("Metadata", 1, 1)` triple; a
leading `"Metadata"` triple is emitted only when the first H2 heading is
not on line 1 (`if first_h2_line > 1`). -/
def get_chapter_boundaries (content : String) : List (String × Nat × Nat) :=
  let lines := pySplitlines content
  let total := lines.length
  if total = 0 then [("Metadata", 1, 1)]
  else
    match h2Positions lines with
    | [] => [("Metadata", 1, total)]
    | (t, s) :: rest =>
      (if 1 < s then [("Metadata", 1, s - 1)] else []) ++
        chapterSpans total ((t, s) :: rest)

/-- `get_line_to_chapter_map` (`server.py` lines 291-306) as a lookup
function: the chapter owning a 1-indexed line number.  The Python dict
is written boundary by boundary, so a later boundary would overwrite an
earlier one; hence the reversed search. -/
def get_line_to_chapter_map (bs : List (String × Nat × Nat)) (n : Nat) :
    Option String :=
  (bs.reverse.find? (fun b => decide (b.2.1 ≤ n) && decide (n ≤ b.2.2))).map
    (fun b => b.1)

/-! ## Document assembly (`server.py` lines 309-354) -/

/-- A value of the assembled metadata record: a passed-through
frontmatter value or the structured chapter list. -/
inductive MetaValue : Type
  | int (n : Nat)
  | str (s : String)
  | chapters (cs : List String)
deriving DecidableEq, Repr

/-- Injection of frontmatter values into metadata values. -/
def FMValue.toMeta : FMValue → MetaValue
  | .int n => .int n
  | .str s => .str s

/-- `frontmatter.get(key, "NA")`. -/
def fmGetD (fm : List (String × FMValue)) (k : String) (d : FMValue) : FMValue :=
  (assocLookup fm k).getD d

/-- The body of the dynamic-fields loop of `parse_document`
(`for key, value in frontmatter.items(): if key not in ("author", "date"):
metadata[key] = value`). -/
def metaStep (md : List (String × MetaValue)) (kv : String × FMValue) :
    List (String × MetaValue) :=
  if kv.1 ≠ "author" ∧ kv.1 ≠ "date" then assocInsert md kv.1 kv.2.toMeta
  else md

/-- `parse_document` (`server.py` lines 309-354), lifted over the file
content (the existence check and `read_text` are modelled at the `Dir`
level).  Builds the metadata dict with the core fields first, then adds
every frontmatter field other than `author`/`date` dynamically —
overwriting a core field in place when the key collides, per Python
dict assignment. -/
def parse_document (content : String) (doc_id doc_version : Nat) :
    Except String (List (String × MetaValue) × String) :=
  match parse_frontmatter content with
  | .error e => .error e
  | .ok (fm, body) =>
    match parse_title body with
    | .error e => .error e
    | .ok title =>
      let metadata : List (String × MetaValue) :=
        [("id", .int doc_id),
         ("version", .int doc_version),
         ("title", .str title),
         ("author", (fmGetD fm "author" (.str "NA")).toMeta),
         ("date", (fmGetD fm "date" (.str "NA")).toMeta),
         ("chapters", .chapters (parse_chapters body))]
      .ok (fm.foldl metaStep metadata, body)

/-! ## Unified diff (model of CPython `difflib.unified_diff`)

`diff_document_versions` delegates the per-chapter line diff to
`difflib.unified_diff(..., n=3, lineterm="")`.  We model it with a
longest-common-subsequence matcher in place of difflib's
Ratcliff-Obershelp `SequenceMatcher`; the two coincide on the cases the
claims exercise (equal sequences, pure deletions, pure insertions),
where every maximal matching agrees.  The opcode grouping, context
trimming and hunk formatting follow `difflib.unified_diff` /
`SequenceMatcher.get_grouped_opcodes` step by step. -/

inductive Tag : Type
  | eq | del | ins | rep
deriving DecidableEq, Repr

/-- A `SequenceMatcher` opcode `(tag, i1, i2, j1, j2)`. -/
structure Op : Type where
  tag : Tag
  i1 : Nat
  i2 : Nat
  j1 : Nat
  j2 : Nat
deriving DecidableEq, Repr

/-- A longest common subsequence of two line lists. -/
def lcs : List String → List String → List String
  | [], _ => []
  | _, [] => []
  | a :: as, b :: bs =>
    if a = b then a :: lcs as bs
    else
      let l1 := lcs (a :: as) bs
      let l2 := lcs as (b :: bs)
      if l2.length ≤ l1.length then l1 else l2
termination_by a b => a.length + b.length

/-- Unit delete opcodes for a run of removed lines. -/
def delUnits (i j : Nat) : List String → List Op
  | [] => []
  | _ :: xs => ⟨.del, i, i + 1, j, j⟩ :: delUnits (i + 1) j xs

/-- Unit insert opcodes for a run of added lines. -/
def insUnits (i j : Nat) : List String → List Op
  | [] => []
  | _ :: ys => ⟨.ins, i, i, j, j + 1⟩ :: insUnits i (j + 1) ys

/-- Walk the two sequences along a common subsequence `c`, emitting one
unit opcode per line. -/
def unitOps (i j : Nat) : List String → List String → List String → List Op
  | a, b, [] => delUnits i j a ++ insUnits (i + a.length) j b
  | a, b, k :: c' =>
    match a with
    | [] => insUnits i j b
    | x :: a' =>
      if x ≠ k then ⟨.del, i, i + 1, j, j⟩ :: unitOps (i + 1) j a' b (k :: c')
      else match b with
        | [] => delUnits i j (x :: a')
        | y :: b' =>
          if y ≠ k then ⟨.ins, i, i, j, j + 1⟩ :: unitOps i (j + 1) (x :: a') b' (k :: c')
          else ⟨.eq, i, i + 1, j, j + 1⟩ :: unitOps (i + 1) (j + 1) a' b' c'
termination_by a b c => a.length + b.length + c.length

/-- Coalesce unit opcodes into maximal `SequenceMatcher`-style opcodes:
adjacent same-tag runs merge, and a delete run followed by an insert run
becomes a replace. -/
def mergeOps : List Op → List Op
  | [] => []
  | [o] => [o]
  | o1 :: o2 :: rest =>
    if o1.tag = o2.tag then
      mergeOps ({ o1 with i2 := o2.i2, j2 := o2.j2 } :: rest)
    else if o1.tag = .del ∧ o2.tag = .ins then
      mergeOps ({ tag := .rep, i1 := o1.i1, i2 := o1.i2, j1 := o2.j1, j2 := o2.j2 } :: rest)
    else if o1.tag = .rep ∧ o2.tag = .ins then
      mergeOps ({ o1 with j2 := o2.j2 } :: rest)
    else o1 :: mergeOps (o2 :: rest)
termination_by l => l.length

/-- `SequenceMatcher.get_opcodes()` for our matcher. -/
def get_opcodes (a b : List String) : List Op :=
  mergeOps (unitOps 0 0 a b (lcs a b))

/-- First phase of `get_grouped_opcodes`: shrink a leading equal opcode
to the last `n` lines of context. -/
def trimHead (n : Nat) : List Op → List Op
  | [] => []
  | op :: rest =>
    if op.tag = .eq then
      { op with i1 := max op.i1 (op.i2 - n), j1 := max op.j1 (op.j2 - n) } :: rest
    else op :: rest

/-- Second phase: shrink a trailing equal opcode to the first `n` lines
of context. -/
def trimLast (n : Nat) (codes : List Op) : List Op :=
  match codes.reverse with
  | [] => []
  | op :: rest =>
    ((if op.tag = .eq then
        { op with i2 := min op.i2 (op.i1 + n), j2 := min op.j2 (op.j1 + n) }
      else op) :: rest).reverse

/-- The final `yield` of `get_grouped_opcodes`: the accumulated group is
emitted unless it is empty or a single equal opcode. -/
def groupFinish (group : List Op) : List (List Op) :=
  match group with
  | [] => []
  | [op] => if op.tag = .eq then [] else [[op]]
  | _ => [group]

/-- The grouping loop of `get_grouped_opcodes`: split at large equal
opcodes, keeping `n` lines of context on each side; a final group that
is a single equal opcode is dropped. -/
def groupLoop (n : Nat) (group : List Op) : List Op → List (List Op)
  | [] => groupFinish group
  | op :: rest =>
    if op.tag = .eq ∧ 2 * n < op.i2 - op.i1 then
      (group ++ [⟨.eq, op.i1, min op.i2 (op.i1 + n), op.j1, min op.j2 (op.j1 + n)⟩]) ::
        groupLoop n [⟨.eq, max op.i1 (op.i2 - n), op.i2, max op.j1 (op.j2 - n), op.j2⟩] rest
    else groupLoop n (group ++ [op]) rest

/-- `SequenceMatcher.get_grouped_opcodes(n)`. -/
def get_grouped_opcodes (n : Nat) (codes : List Op) : List (List Op) :=
  let codes := if codes.isEmpty then [⟨.eq, 0, 1, 0, 1⟩] else codes
  groupLoop n [] (trimLast n (trimHead n codes))

/-- `difflib._format_range_unified(start, stop)`. -/
def fmtRangeUnified (start stop : Nat) : String :=
  if stop - start = 1 then toString (start + 1)
  else if stop - start = 0 then toString start ++ ",0"
  else toString (start + 1) ++ "," ++ toString (stop - start)

/-- Python slice `l[i:j]`. -/
def pySlice {α : Type} (l : List α) (i j : Nat) : List α :=
  (l.take j).drop i

/-- The `@@ -r1 +r2 @@` hunk header and prefixed lines of one group. -/
def hunkOf (a b : List String) (g : List Op) : List String :=
  let first := g.headD ⟨.eq, 0, 0, 0, 0⟩
  let last := g.getLastD ⟨.eq, 0, 0, 0, 0⟩
  ("@@ -" ++ fmtRangeUnified first.i1 last.i2 ++ " +" ++
      fmtRangeUnified first.j1 last.j2 ++ " @@") ::
    g.flatMap (fun op =>
      match op.tag with
      | .eq => (pySlice a op.i1 op.i2).map (fun l => " " ++ l)
      | .del => (pySlice a op.i1 op.i2).map (fun l => "-" ++ l)
      | .ins => (pySlice b op.j1 op.j2).map (fun l => "+" ++ l)
      | .rep =>
        (pySlice a op.i1 op.i2).map (fun l => "-" ++ l) ++
          (pySlice b op.j1 op.j2).map (fun l => "+" ++ l))

/-- `difflib.unified_diff(a, b, fromfile, tofile, n=3, lineterm="")` as a
line list: empty when there is no change hunk, otherwise the two file
header lines followed by the hunks. -/
def unified_diff (a b : List String) (fromfile tofile : String) : List String :=
  match get_grouped_opcodes 3 (get_opcodes a b) with
  | [] => []
  | groups =>
    ("--- " ++ fromfile) :: ("+++ " ++ tofile) :: groups.flatMap (hunkOf a b)

/-! ## Chapter-partitioned diff (`server.py` lines 803-918) -/

/-- The chapter-partitioned diff at the heart of the
`diff_document_versions` tool (`server.py` lines 850-907), lifted over
the two file contents; `fromfile`/`tofile` are the
`{id}_v{version}.md` labels the tool passes to `difflib`.  Chapter
names are collected in first-seen order scanning old boundaries then
new boundaries; a chapter whose filtered line lists produce no diff
lines is omitted. -/
def diff_document_versions (fromfile tofile old_content new_content : String) :
    List (String × String) :=
  let old_boundaries := get_chapter_boundaries old_content
  let new_boundaries := get_chapter_boundaries new_content
  let old_line_map := get_line_to_chapter_map old_boundaries
  let new_line_map := get_line_to_chapter_map new_boundaries
  let all_chapters := dedupFirst ((old_boundaries ++ new_boundaries).map (fun b => b.1))
  let old_lines := pySplitlines old_content
  let new_lines := pySplitlines new_content
  all_chapters.filterMap (fun chapter_name =>
    let old_chapter_lines := (enumFrom 1 old_lines).filterMap
      (fun p => if old_line_map p.1 = some chapter_name then some p.2 else none)
    let new_chapter_lines := (enumFrom 1 new_lines).filterMap
      (fun p => if new_line_map p.1 = some chapter_name then some p.2 else none)
    let diff_lines := unified_diff old_chapter_lines new_chapter_lines fromfile tofile
    if diff_lines.isEmpty then none
    else some (chapter_name, String.intercalate "\n" diff_lines))

/-! ## Filesystem catalog (`server.py` lines 362-440) -/

/-- One directory entry.  `isFile` is the `Path.is_file()` answer,
`statFails` injects an `OSError` from that call, `content` is what
`Path.read_text` would return and `readFails` injects an `OSError`
from it. -/
structure Entry : Type where
  name : String
  isFile : Bool
  statFails : Bool
  content : String
  readFails : Bool
deriving DecidableEq, Repr

/-- The documents directory.  `existsFails` injects an `OSError` from
`docs_path.exists()`, `dirExists` is its answer otherwise, and
`listFails` injects an `OSError` from the `glob` listing. -/
structure Dir : Type where
  dirExists : Bool
  existsFails : Bool
  listFails : Bool
  entries : List Entry
deriving DecidableEq, Repr

/-- The `"*.md"` glob pattern on an entry name.  (POSIX `pathlib` glob
additionally skips dotfiles; a dotfile never matches
`FILENAME_PATTERN` anyway, so the modelled catalog is unaffected.) -/
def globMD (name : String) : Bool :=
  name.data.reverse.take 3 = ['d', 'm', '.']

/-- `FILENAME_PATTERN = ^(\d+)_v(\d+)\.md$` as a full-name parser
returning the two captured integers. -/
def parseFilename (name : String) : Option (Nat × Nat) :=
  let cs := name.data
  let d1 := cs.takeWhile Char.isDigit
  match cs.dropWhile Char.isDigit with
  | '_' :: 'v' :: r2 =>
    let d2 := r2.takeWhile Char.isDigit
    if d1.isEmpty || d2.isEmpty then none
    else if r2.dropWhile Char.isDigit = ['.', 'm', 'd'] then
      some (digitsToNat d1, digitsToNat d2)
    else none
  | _ => none

/-- `get_all_document_files` (`server.py` lines 362-398): every
`*.md` entry that is a regular file and matches the filename pattern,
as `(doc_id, version, entry)`.  Every `OSError` is absorbed: at the
existence check or listing it degrades to `[]`, at an `is_file()` call
it skips that entry; accordingly this model is total and returns a
plain list. -/
def get_all_document_files (d : Dir) : List (Nat × Nat × Entry) :=
  if d.existsFails then []
  else if !d.dirExists then []
  else if d.listFails then []
  else d.entries.filterMap (fun e =>
    if !globMD e.name then none
    else if e.statFails then none
    else if !e.isFile then none
    else (parseFilename e.name).map (fun p => (p.1, p.2, e)))

/-- `get_latest_version` (`server.py` lines 401-412): greatest version
among the enumerated files with the given id, `none` when there are
none. -/
def get_latest_version (d : Dir) (doc_id : Nat) : Option Nat :=
  match (get_all_document_files d).filterMap
      (fun f => if f.1 = doc_id then some f.2.1 else none) with
  | [] => none
  | v :: rest => some (rest.foldl Nat.max v)

/-- The `{doc_id}_v{version}.md` filename built by
`find_document_path`. -/
def docFileName (doc_id version : Nat) : String :=
  toString doc_id ++ "_v" ++ toString version ++ ".md"

/-- `path.exists()` for a name inside the documents directory: some
filesystem object with that name exists. -/
def pathExists (d : Dir) (name : String) : Bool :=
  d.entries.any (fun e => e.name = name)

/-- `find_document_path` (`server.py` lines 415-440): resolve
`(doc_id, version)` to a filename, resolving an absent version to the
latest; `FileNotFoundError` messages are returned as `Except.error`. -/
def find_document_path (d : Dir) (doc_id : Nat) (version : Option Nat) :
    Except String (String × Nat) :=
  match version with
  | none =>
    match get_latest_version d doc_id with
    | none => .error ("Document " ++ toString doc_id ++ " not found")
    | some v =>
      let path := docFileName doc_id v
      if pathExists d path then .ok (path, v)
      else .error ("Document " ++ toString doc_id ++ " version " ++ toString v ++ " not found")
  | some v =>
    let path := docFileName doc_id v
    if pathExists d path then .ok (path, v)
    else .error ("Document " ++ toString doc_id ++ " version " ++ toString v ++ " not found")

/-- `Path.read_text` on an entry: the content, or an `OSError`. -/
def readEntry (e : Entry) : Except String String :=
  if e.readFails then .error "I/O error" else .ok e.content

/-! ## Listing and filtering (`server.py` lines 443-502) -/

/-- A `DocumentSummary` row of `list_documents`.  `status` and
`document_type` keep the frontmatter value type (`pydantic` coercion of
non-string values is outside the modelled claims). -/
structure DocumentSummary : Type where
  id : Nat
  title : String
  latest_version : Nat
  status : FMValue
  document_type : FMValue
deriving DecidableEq, Repr

/-- Append a `(version, entry)` to the group of `doc_id`, creating the
group at the end on first sight (Python dict insertion order). -/
def addToGroups (gs : List (Nat × List (Nat × Entry))) (doc_id : Nat)
    (v : Nat × Entry) : List (Nat × List (Nat × Entry)) :=
  match gs with
  | [] => [(doc_id, [v])]
  | g :: rest =>
    if g.1 = doc_id then (doc_id, g.2 ++ [v]) :: rest
    else g :: addToGroups rest doc_id v

/-- The `doc_versions` grouping dict of `scan_documents`. -/
def groupById (files : List (Nat × Nat × Entry)) : List (Nat × List (Nat × Entry)) :=
  files.foldl (fun gs f => addToGroups gs f.1 (f.2.1, f.2.2)) []

/-- Python `max(versions, key=lambda x: x[0])` on a nonempty list given
as head and tail: the first element with maximal key wins. -/
def pyMaxByFst (x : Nat × Entry) (xs : List (Nat × Entry)) : Nat × Entry :=
  xs.foldl (fun best y => if best.1 < y.1 then y else best) x

/-- `needle in hay` on character lists (Python substring test; the
empty needle is in everything). -/
def listContainsSub (needle : List Char) : List Char → Bool
  | [] => needle.isEmpty
  | c :: t => if needle.isPrefixOf (c :: t) then true else listContainsSub needle t

/-- Case-insensitive substring test `needle.lower() in hay.lower()`
against a frontmatter value.  (On an integer value CPython would raise
`AttributeError` from `.lower()`; no proved claim reaches that case.) -/
def substrCI (needle : String) (hay : FMValue) : Bool :=
  match hay with
  | .str s => listContainsSub (strToLower needle).data (strToLower s).data
  | .int _ => false

/-- `scan_documents` (`server.py` lines 443-502): group enumerated files
by id, read and parse the latest version of each (skipping ids whose
latest file fails to read or parse), then apply the `status`,
`document_type` and `author` filters — each skipped when the requested
value is falsy or when the document's candidate field is `"NA"`. -/
def scan_documents (d : Dir) (status doc_type author : Option String) :
    List DocumentSummary :=
  (groupById (get_all_document_files d)).filterMap (fun g =>
    match g.2 with
    | [] => none
    | v0 :: vs =>
      let latest := pyMaxByFst v0 vs
      match readEntry latest.2 with
      | .error _ => none
      | .ok content =>
        match parse_frontmatter content with
        | .error _ => none
        | .ok (fm, body) =>
          match parse_title body with
          | .error _ => none
          | .ok doc_title =>
            let doc_status := fmGetD fm "status" (.str "NA")
            let doc_type_val := fmGetD fm "document_type" (.str "NA")
            let doc_author := fmGetD fm "author" (.str "NA")
            if pyTruthy status ∧ doc_status ≠ .str "NA" ∧
                doc_status ≠ .str (status.getD "") then none
            else if pyTruthy doc_type ∧ doc_type_val ≠ .str "NA" ∧
                doc_type_val ≠ .str (doc_type.getD "") then none
            else if pyTruthy author ∧ doc_author ≠ .str "NA" ∧
                !substrCI (author.getD "") doc_author then none
            else some ⟨g.1, doc_title, latest.1, doc_status, doc_type_val⟩)

/-! ## The fetch-chapter operation (`server.py` lines 718-801) -/

/-- A structured `{code, message}` error response. -/
structure ErrorResponse : Type where
  code : String
  message : String
deriving DecidableEq, Repr

/-- `get_chapter_content` (`server.py` lines 718-801): resolve the
document, read it, strip frontmatter, extract the chapter; a missing
chapter is a `CHAPTER_NOT_FOUND` error.  Success carries
`(content, matched_title)`. -/
def get_chapter_content (d : Dir) (document_id : Nat) (chapter_title : String)
    (version : Option Nat) : Except ErrorResponse (String × String) :=
  match find_document_path d document_id version with
  | .error msg => .error ⟨"NOT_FOUND", msg⟩
  | .ok (path, _) =>
    match d.entries.find? (fun e => e.name = path) with
    | none => .error ⟨"READ_ERROR", "I/O error"⟩
    | some e =>
      match readEntry e with
      | .error msg => .error ⟨"READ_ERROR", msg⟩
      | .ok content =>
        match parse_frontmatter content with
        | .error msg => .error ⟨"INVALID_FORMAT", msg⟩
        | .ok (_, body) =>
          match extract_chapter_content body chapter_title with
          | none =>
            .error ⟨"CHAPTER_NOT_FOUND",
              "Chapter " ++ squote ++ chapter_title ++ squote ++
                " not found in document " ++ toString document_id⟩
          | some (matched_title, chapter_content) =>
            .ok (chapter_content, matched_title)

/-! ## Lemmas about the unified diff -/

theorem lcs_nil_left (b : List String) : lcs [] b = [] := by
  cases b <;> simp [lcs]

theorem lcs_nil_right (a : List String) : lcs a [] = [] := by
  cases a <;> simp [lcs]

theorem lcs_self (a : List String) : lcs a a = a := by
  induction a with
  | nil => simp [lcs]
  | cons x xs ih => simp [lcs, ih]

theorem unitOps_cons_self (x : String) (a : List String) (i j : Nat) :
    unitOps i j (x :: a) (x :: a) (x :: a) =
      ⟨.eq, i, i + 1, j, j + 1⟩ :: unitOps (i + 1) (j + 1) a a a := by
  simp [unitOps]

theorem merge_eq_run (a : List String) :
    ∀ i1 i2 j1 j2, mergeOps (⟨.eq, i1, i2, j1, j2⟩ :: unitOps i2 j2 a a a) =
      [⟨.eq, i1, i2 + a.length, j1, j2 + a.length⟩] := by
  induction a with
  | nil => intro i1 i2 j1 j2; simp [unitOps, delUnits, insUnits, mergeOps]
  | cons x xs ih =>
    intro i1 i2 j1 j2
    rw [unitOps_cons_self]
    show mergeOps (⟨.eq, i1, i2, j1, j2⟩ :: ⟨.eq, i2, i2 + 1, j2, j2 + 1⟩ :: _) = _
    rw [mergeOps]
    simp only [reduceCtorEq, if_true, if_pos rfl]
    rw [ih]
    simp only [List.length_cons]
    congr 1
    congr 1 <;> omega

theorem unitOps_nil_nil (i j : Nat) : unitOps i j [] [] [] = [] := by
  simp [unitOps, delUnits, insUnits]

theorem get_opcodes_self (a : List String) :
    get_opcodes a a = if a.isEmpty then [] else [⟨.eq, 0, a.length, 0, a.length⟩] := by
  cases a with
  | nil =>
    simp only [get_opcodes, lcs_self, unitOps_nil_nil, mergeOps, List.isEmpty_nil,
      if_true]
  | cons x xs =>
    simp only [get_opcodes, lcs_self, unitOps_cons_self, List.isEmpty_cons,
      Bool.false_eq_true, if_false]
    have h := merge_eq_run xs 0 1 0 1
    rw [h]
    simp [List.length_cons, Nat.add_comm]

theorem trimHead_single_eq (n i1 i2 j1 j2 : Nat) :
    trimHead n [⟨.eq, i1, i2, j1, j2⟩] =
      [⟨.eq, max i1 (i2 - n), i2, max j1 (j2 - n), j2⟩] := by
  simp [trimHead]

theorem trimLast_single_eq (n i1 i2 j1 j2 : Nat) :
    trimLast n [⟨.eq, i1, i2, j1, j2⟩] =
      [⟨.eq, i1, min i2 (i1 + n), j1, min j2 (j1 + n)⟩] := by
  simp [trimLast]

theorem groupLoop_nil (n : Nat) (group : List Op) :
    groupLoop n group [] = groupFinish group := by
  simp [groupLoop]

theorem groupLoop_cons_small (n : Nat) (group : List Op) (op : Op) (rest : List Op)
    (h : ¬(op.tag = .eq ∧ 2 * n < op.i2 - op.i1)) :
    groupLoop n group (op :: rest) = groupLoop n (group ++ [op]) rest := by
  simp only [groupLoop, if_neg h]

theorem grouped_singleton_eq (n i1 i2 j1 j2 : Nat) :
    get_grouped_opcodes n [⟨.eq, i1, i2, j1, j2⟩] = [] := by
  simp only [get_grouped_opcodes, List.isEmpty_cons, Bool.false_eq_true, if_false,
    trimHead_single_eq, trimLast_single_eq]
  rw [groupLoop_cons_small]
  · rw [groupLoop_nil]
    rfl
  · simp only [not_and]
    intro _
    omega

theorem grouped_nil (n : Nat) : get_grouped_opcodes n [] = [] := by
  have h1 : get_grouped_opcodes n [] =
      groupLoop n [] (trimLast n (trimHead n [⟨.eq, 0, 1, 0, 1⟩])) := by
    simp [get_grouped_opcodes]
  have h2 : get_grouped_opcodes n [⟨.eq, 0, 1, 0, 1⟩] =
      groupLoop n [] (trimLast n (trimHead n [⟨.eq, 0, 1, 0, 1⟩])) := by
    simp [get_grouped_opcodes]
  rw [h1, ← h2, grouped_singleton_eq]

theorem unified_diff_self (a : List String) (f t : String) :
    unified_diff a a f t = [] := by
  unfold unified_diff
  rw [get_opcodes_self]
  cases a with
  | nil => simp [grouped_nil]
  | cons x xs =>
    simp only [List.isEmpty_cons, Bool.false_eq_true, if_false]
    rw [grouped_singleton_eq]

theorem merge_del_run (a : List String) :
    ∀ i1 i2 j, mergeOps (⟨.del, i1, i2, j, j⟩ :: delUnits i2 j a) =
      [⟨.del, i1, i2 + a.length, j, j⟩] := by
  induction a with
  | nil => intro i1 i2 j; simp [delUnits, mergeOps]
  | cons x xs ih =>
    intro i1 i2 j
    show mergeOps (⟨.del, i1, i2, j, j⟩ :: ⟨.del, i2, i2 + 1, j, j⟩ :: _) = _
    rw [mergeOps]
    simp only [reduceCtorEq, if_true, if_pos rfl]
    rw [ih]
    simp only [List.length_cons]
    congr 2
    omega

theorem merge_ins_run (b : List String) :
    ∀ i j1 j2, mergeOps (⟨.ins, i, i, j1, j2⟩ :: insUnits i j2 b) =
      [⟨.ins, i, i, j1, j2 + b.length⟩] := by
  induction b with
  | nil => intro i j1 j2; simp [insUnits, mergeOps]
  | cons x xs ih =>
    intro i j1 j2
    show mergeOps (⟨.ins, i, i, j1, j2⟩ :: ⟨.ins, i, i, j2, j2 + 1⟩ :: _) = _
    rw [mergeOps]
    simp only [reduceCtorEq, if_true, if_pos rfl]
    rw [ih]
    simp only [List.length_cons]
    congr 2
    omega

theorem unitOps_lcs_nil (i j : Nat) (a b : List String) :
    unitOps i j a b [] = delUnits i j a ++ insUnits (i + a.length) j b := by
  simp [unitOps]

theorem get_opcodes_del (x : String) (a : List String) :
    get_opcodes (x :: a) [] = [⟨.del, 0, a.length + 1, 0, 0⟩] := by
  simp only [get_opcodes, lcs_nil_right, unitOps_lcs_nil, insUnits,
    List.append_nil, delUnits]
  have h := merge_del_run a 0 1 0
  rw [h]
  congr 2
  omega

theorem get_opcodes_ins (y : String) (b : List String) :
    get_opcodes [] (y :: b) = [⟨.ins, 0, 0, 0, b.length + 1⟩] := by
  simp only [get_opcodes, lcs_nil_left, unitOps_lcs_nil, delUnits,
    List.nil_append, List.length_nil, Nat.add_zero, insUnits]
  have h := merge_ins_run b 0 0 1
  rw [h]
  congr 2
  omega

theorem grouped_singleton_ne_eq (n : Nat) (op : Op) (h : op.tag ≠ .eq) :
    get_grouped_opcodes n [op] = [[op]] := by
  have htrim1 : trimHead n [op] = [op] := by simp [trimHead, h]
  have htrim2 : trimLast n [op] = [op] := by simp [trimLast, h]
  simp only [get_grouped_opcodes, List.isEmpty_cons, Bool.false_eq_true, if_false,
    htrim1, htrim2]
  rw [groupLoop_cons_small n [] op [] (by simp only [not_and]; intro hc; exact absurd hc h)]
  rw [groupLoop_nil]
  simp only [List.nil_append, groupFinish, if_neg h]

theorem pySlice_all {α : Type} (l : List α) : pySlice l 0 l.length = l := by
  simp [pySlice]

theorem unified_diff_del (x : String) (a : List String) (f t : String) :
    unified_diff (x :: a) [] f t =
      ("--- " ++ f) :: ("+++ " ++ t) ::
        ("@@ -" ++ fmtRangeUnified 0 (a.length + 1) ++ " +" ++ fmtRangeUnified 0 0 ++ " @@") ::
        (x :: a).map (fun l => "-" ++ l) := by
  have hs : pySlice (x :: a) 0 (a.length + 1) = x :: a := by
    have := pySlice_all (x :: a)
    simpa using this
  have hlast : List.getLastD [(⟨.del, 0, a.length + 1, 0, 0⟩ : Op)] ⟨.eq, 0, 0, 0, 0⟩ =
      ⟨.del, 0, a.length + 1, 0, 0⟩ := rfl
  unfold unified_diff
  rw [get_opcodes_del, grouped_singleton_ne_eq 3 _ (by simp)]
  simp only [List.flatMap_cons, List.flatMap_nil, List.append_nil, hunkOf,
    List.headD_cons, hlast, hs]

theorem unified_diff_ins (y : String) (b : List String) (f t : String) :
    unified_diff [] (y :: b) f t =
      ("--- " ++ f) :: ("+++ " ++ t) ::
        ("@@ -" ++ fmtRangeUnified 0 0 ++ " +" ++ fmtRangeUnified 0 (b.length + 1) ++ " @@") ::
        (y :: b).map (fun l => "+" ++ l) := by
  have hs : pySlice (y :: b) 0 (b.length + 1) = y :: b := by
    have := pySlice_all (y :: b)
    simpa using this
  have hlast : List.getLastD [(⟨.ins, 0, 0, 0, b.length + 1⟩ : Op)] ⟨.eq, 0, 0, 0, 0⟩ =
      ⟨.ins, 0, 0, 0, b.length + 1⟩ := rfl
  unfold unified_diff
  rw [get_opcodes_ins, grouped_singleton_ne_eq 3 _ (by simp)]
  simp only [List.flatMap_cons, List.flatMap_nil, List.append_nil, hunkOf,
    List.headD_cons, hlast, hs]

/-! ## Lemmas about association lists and the metadata fold -/

theorem assocLookup_cons {α : Type} (kv : String × α) (m : List (String × α))
    (k : String) :
    assocLookup (kv :: m) k = if kv.1 = k then some kv.2 else assocLookup m k := by
  unfold assocLookup
  by_cases h : kv.1 = k
  · rw [List.find?_cons_of_pos _ (by simpa using h), if_pos h]
    rfl
  · rw [List.find?_cons_of_neg _ (by simpa using h), if_neg h]

theorem assocLookup_insert_self {α : Type} (m : List (String × α)) (k : String) (v : α) :
    assocLookup (assocInsert m k v) k = some v := by
  induction m with
  | nil =>
    simp only [assocInsert]
    rw [assocLookup_cons]
    simp
  | cons kv rest ih =>
    by_cases h : kv.1 = k
    · simp only [assocInsert, if_pos h]
      rw [assocLookup_cons]
      simp
    · simp only [assocInsert, if_neg h]
      rw [assocLookup_cons, if_neg h]
      exact ih

theorem assocLookup_insert_other {α : Type} (m : List (String × α)) (k k' : String)
    (v : α) (h : k' ≠ k) :
    assocLookup (assocInsert m k v) k' = assocLookup m k' := by
  induction m with
  | nil =>
    simp only [assocInsert]
    rw [assocLookup_cons, if_neg (fun hh => h hh.symm)]
  | cons kv rest ih =>
    by_cases hk : kv.1 = k
    · simp only [assocInsert, if_pos hk]
      rw [assocLookup_cons, assocLookup_cons, if_neg (fun hh => h hh.symm),
        if_neg (fun hh => h (hk ▸ hh).symm)]
    · simp only [assocInsert, if_neg hk]
      rw [assocLookup_cons, assocLookup_cons]
      by_cases hk' : kv.1 = k'
      · rw [if_pos hk', if_pos hk']
      · rw [if_neg hk', if_neg hk']
        exact ih

theorem assocLookup_mem {α : Type} {m : List (String × α)} {k : String} {v : α}
    (h : assocLookup m k = some v) : (k, v) ∈ m := by
  unfold assocLookup at h
  cases hfind : m.find? (fun kv => kv.1 = k) with
  | none => rw [hfind] at h; simp at h
  | some kv =>
    rw [hfind] at h
    have h2 : kv.2 = v := by simpa using h
    have hmem := List.mem_of_find?_eq_some hfind
    have hp := List.find?_some hfind
    simp only [decide_eq_true_eq] at hp
    have : kv = (k, v) := by
      cases kv
      simp only [Prod.mk.injEq]
      exact ⟨hp, h2⟩
    rwa [this] at hmem

theorem assocInsert_keys {α : Type} (m : List (String × α)) (k : String) (v : α) :
    (assocInsert m k v).map Prod.fst =
      if k ∈ m.map Prod.fst then m.map Prod.fst else m.map Prod.fst ++ [k] := by
  induction m with
  | nil => simp [assocInsert]
  | cons kv rest ih =>
    by_cases h : kv.1 = k
    · simp [assocInsert, h]
    · simp only [assocInsert, if_neg h, List.map_cons, List.mem_cons]
      rw [ih]
      by_cases hmem : k ∈ rest.map Prod.fst
      · rw [if_pos hmem, if_pos (Or.inr hmem)]
      · rw [if_neg hmem, if_neg (by rintro (hh | hh); exact h hh.symm; exact hmem hh)]
        simp

theorem assocInsert_nodup {α : Type} (m : List (String × α)) (k : String) (v : α)
    (h : (m.map Prod.fst).Nodup) : ((assocInsert m k v).map Prod.fst).Nodup := by
  rw [assocInsert_keys]
  by_cases hmem : k ∈ m.map Prod.fst
  · rwa [if_pos hmem]
  · rw [if_neg hmem]
    refine List.Nodup.append h (List.nodup_singleton k) ?_
    intro x hx hx2
    rw [List.mem_singleton] at hx2
    subst hx2
    exact hmem hx

theorem parseFMLine_nodup (m : List (String × FMValue)) (line : String)
    (h : (m.map Prod.fst).Nodup) : ((parseFMLine m line).map Prod.fst).Nodup := by
  simp only [parseFMLine]
  split
  · exact h
  · split
    · exact h
    · split
      · exact h
      · split
        · exact h
        · split
          · exact assocInsert_nodup _ _ _ h
          · exact assocInsert_nodup _ _ _ h

theorem parseFMLines_nodup (text : String) :
    ((parseFMLines text).map Prod.fst).Nodup := by
  unfold parseFMLines
  generalize pySplitlines text = ls
  have : ∀ (ls : List String) (m : List (String × FMValue)),
      (m.map Prod.fst).Nodup → ((ls.foldl parseFMLine m).map Prod.fst).Nodup := by
    intro ls
    induction ls with
    | nil => intro m h; exact h
    | cons l rest ih =>
      intro m h
      exact ih _ (parseFMLine_nodup m l h)
  exact this ls [] (by simp)

theorem parse_frontmatter_nodup {content : String} {fm : List (String × FMValue)}
    {body : String} (h : parse_frontmatter content = .ok (fm, body)) :
    (fm.map Prod.fst).Nodup := by
  unfold parse_frontmatter at h
  split at h
  · simp only [Except.ok.injEq, Prod.mk.injEq] at h
    rw [← h.1]
    simp
  · split at h
    · simp only [Except.ok.injEq, Prod.mk.injEq] at h
      rw [← h.1]
      exact parseFMLines_nodup _
    · exact absurd h (by simp)

theorem metaFold_lookup_notin (items : List (String × FMValue)) :
    ∀ (md : List (String × MetaValue)) (k : String),
      k ∉ items.map Prod.fst →
      assocLookup (items.foldl metaStep md) k = assocLookup md k := by
  induction items with
  | nil => intro md k _; rfl
  | cons kv rest ih =>
    intro md k hk
    simp only [List.map_cons, List.mem_cons] at hk
    push_neg at hk
    simp only [List.foldl_cons]
    rw [ih _ k hk.2]
    unfold metaStep
    split
    · exact assocLookup_insert_other _ _ _ _ hk.1
    · rfl

theorem metaFold_lookup_reserved (items : List (String × FMValue)) :
    ∀ (md : List (String × MetaValue)) (k : String),
      k = "author" ∨ k = "date" →
      assocLookup (items.foldl metaStep md) k = assocLookup md k := by
  induction items with
  | nil => intro md k _; rfl
  | cons kv rest ih =>
    intro md k hk
    simp only [List.foldl_cons]
    rw [ih _ k hk]
    unfold metaStep
    split
    · next hcond =>
      refine assocLookup_insert_other _ _ _ _ ?_
      rcases hk with h | h <;> subst h
      · exact fun hh => hcond.1 hh.symm
      · exact fun hh => hcond.2 hh.symm
    · rfl

theorem metaFold_lookup_mem (items : List (String × FMValue)) :
    ∀ (md : List (String × MetaValue)) (k : String) (v : FMValue),
      (items.map Prod.fst).Nodup → (k, v) ∈ items →
      k ≠ "author" → k ≠ "date" →
      assocLookup (items.foldl metaStep md) k = some v.toMeta := by
  induction items with
  | nil => intro md k v _ hmem; simp at hmem
  | cons kv rest ih =>
    intro md k v hnd hmem hka hkd
    simp only [List.map_cons, List.nodup_cons] at hnd
    simp only [List.foldl_cons]
    rcases List.mem_cons.mp hmem with heq | hmem'
    · subst heq
      rw [metaFold_lookup_notin rest _ k (by simpa using hnd.1)]
      unfold metaStep
      rw [if_pos ⟨hka, hkd⟩]
      exact assocLookup_insert_self _ _ _
    · exact ih _ k v hnd.2 hmem' hka hkd

/-! ## Claim C2 -/

/-- C2 (refuted by evaluation — code bug): a frontmatter key named `id`
*does* replace the filename-derived value in the record assembled by
`parse_document`, contrary to the function's own docstring ("The id and
version are derived from the filename").  For the file content
`---\nid: 999\n---\n# Title` parsed as document 5 version 1, the
assembled metadata maps `"id"` to `999`, not to `5`. -/
theorem parse_document_frontmatter_overrides_id :
    (parse_document "---\nid: 999\n---\n# Title" 5 1).toOption.map
        (fun p => assocLookup p.1 "id") = some (some (.int 999)) ∧
      (MetaValue.int 999 ≠ MetaValue.int 5) := by
  constructor
  · rfl
  · decide

/-! ## Claim C6 -/

/-- C6: for every document content with well-formed frontmatter and a
first top-level heading, the metadata record produced by
`parse_document` contains every frontmatter key other than `author` and
`date` mapped to its parsed value verbatim, and contains `author` and
`date` equal to their frontmatter values when present and to the
sentinel `"NA"` when absent (`frontmatter.get(key, "NA")`). -/
theorem load_metadata_passthrough (content : String) (doc_id doc_version : Nat)
    (fm : List (String × FMValue)) (body title : String)
    (hfm : parse_frontmatter content = .ok (fm, body))
    (ht : parse_title body = .ok title) :
    ∃ md, parse_document content doc_id doc_version = .ok (md, body) ∧
      (∀ k v, k ≠ "author" → k ≠ "date" → assocLookup fm k = some v →
        assocLookup md k = some v.toMeta) ∧
      assocLookup md "author" = some ((fmGetD fm "author" (.str "NA")).toMeta) ∧
      assocLookup md "date" = some ((fmGetD fm "date" (.str "NA")).toMeta) := by
  unfold parse_document
  rw [hfm]
  dsimp only
  rw [ht]
  refine ⟨_, rfl, ?_, ?_, ?_⟩
  · intro k v hka hkd hlk
    exact metaFold_lookup_mem fm _ k v (parse_frontmatter_nodup hfm)
      (assocLookup_mem hlk) hka hkd
  · rw [metaFold_lookup_reserved fm _ "author" (Or.inl rfl)]
    rfl
  · rw [metaFold_lookup_reserved fm _ "date" (Or.inr rfl)]
    rfl

/-- Witness for C6: a concrete document with frontmatter keys
`status` (extra), `date` (present) and no `author`; the record
passes `status` through, keeps the frontmatter `date` and defaults
`author` to `"NA"`. -/
theorem load_metadata_passthrough_witness :
    parse_frontmatter "---\nstatus: Approved\ndate: 2025-01-15\n---\n# T" =
      .ok ([("status", .str "Approved"), ("date", .str "2025-01-15")], "# T") ∧
    parse_title "# T" = .ok "T" ∧
    ∃ md, parse_document "---\nstatus: Approved\ndate: 2025-01-15\n---\n# T" 5 2 =
        .ok (md, "# T") ∧
      assocLookup md "status" = some (.str "Approved") ∧
      assocLookup md "author" = some (.str "NA") ∧
      assocLookup md "date" = some (.str "2025-01-15") := by
  refine ⟨rfl, rfl, ?_⟩
  obtain ⟨md, h1, h2, h3, h4⟩ :=
    load_metadata_passthrough "---\nstatus: Approved\ndate: 2025-01-15\n---\n# T" 5 2
      [("status", .str "Approved"), ("date", .str "2025-01-15")] "# T" "T" rfl rfl
  refine ⟨md, h1, ?_, ?_, ?_⟩
  · exact h2 "status" (.str "Approved") (by decide) (by decide) rfl
  · rw [h3]; rfl
  · rw [h4]; rfl

/-! ## Lemmas about enumeration and chapter boundaries -/

theorem enumFrom_append {α : Type} (xs : List α) :
    ∀ (n : Nat) (ys : List α),
      enumFrom n (xs ++ ys) = enumFrom n xs ++ enumFrom (n + xs.length) ys := by
  induction xs with
  | nil => intro n ys; simp [enumFrom]
  | cons x rest ih =>
    intro n ys
    simp only [List.cons_append, enumFrom, List.length_cons, List.append_eq]
    rw [ih (n + 1) ys]
    have harith : n + 1 + rest.length = n + (rest.length + 1) := by omega
    rw [harith]

theorem enumFrom_mem_bounds {α : Type} {l : List α} :
    ∀ {n : Nat} {p : Nat × α}, p ∈ enumFrom n l → n ≤ p.1 ∧ p.1 < n + l.length := by
  induction l with
  | nil => intro n p h; simp [enumFrom] at h
  | cons x rest ih =>
    intro n p h
    simp only [enumFrom, List.mem_cons] at h
    rcases h with h | h
    · subst h
      refine ⟨le_refl n, ?_⟩
      simp only [List.length_cons]
      omega
    · have := ih h
      simp only [List.length_cons]
      omega

theorem enumFrom_mem_snd {α : Type} {l : List α} :
    ∀ {n : Nat} {p : Nat × α}, p ∈ enumFrom n l → p.2 ∈ l := by
  induction l with
  | nil => intro n p h; simp [enumFrom] at h
  | cons x rest ih =>
    intro n p h
    simp only [enumFrom, List.mem_cons] at h
    rcases h with h | h
    · subst h; simp
    · exact List.mem_cons_of_mem _ (ih h)

theorem enumFrom_pairwise {α : Type} (l : List α) :
    ∀ (n : Nat), List.Pairwise (fun p q : Nat × α => p.1 < q.1) (enumFrom n l) := by
  induction l with
  | nil => intro n; simp [enumFrom]
  | cons x rest ih =>
    intro n
    simp only [enumFrom, List.pairwise_cons]
    refine ⟨fun q hq => ?_, ih (n + 1)⟩
    have := enumFrom_mem_bounds hq
    omega

theorem pairwise_filterMap_lift {α β : Type} (f : α → Option β)
    (R : α → α → Prop) (S : β → β → Prop)
    (hf : ∀ a b x y, R a b → f a = some x → f b = some y → S x y) :
    ∀ (l : List α), List.Pairwise R l → List.Pairwise S (l.filterMap f) := by
  intro l
  induction l with
  | nil => intro _; simp
  | cons a rest ih =>
    intro hp
    rw [List.pairwise_cons] at hp
    rw [List.filterMap_cons]
    cases hfa : f a with
    | none => exact ih hp.2
    | some x =>
      rw [List.pairwise_cons]
      refine ⟨fun y hy => ?_, ih hp.2⟩
      obtain ⟨b, hb, hfb⟩ := List.mem_filterMap.mp hy
      exact hf a b x y (hp.1 b hb) hfa hfb

theorem h2Positions_mem {lines : List String} {p : String × Nat}
    (h : p ∈ h2Positions lines) : 1 ≤ p.2 ∧ p.2 ≤ lines.length := by
  unfold h2Positions at h
  obtain ⟨a, ha, hfa⟩ := List.mem_filterMap.mp h
  have hb := enumFrom_mem_bounds ha
  rcases Option.map_eq_some'.mp hfa with ⟨t, _, hpt⟩
  subst hpt
  simp only
  omega

theorem h2Positions_pairwise (lines : List String) :
    List.Pairwise (fun p q : String × Nat => p.2 < q.2) (h2Positions lines) := by
  unfold h2Positions
  refine pairwise_filterMap_lift _ (fun p q : Nat × String => p.1 < q.1) _
    ?_ _ (enumFrom_pairwise lines 1)
  intro a b x y hR hfa hfb
  rcases Option.map_eq_some'.mp hfa with ⟨t, _, hx⟩
  rcases Option.map_eq_some'.mp hfb with ⟨u, _, hy⟩
  subst hx; subst hy
  simpa using hR

theorem chapterSpans_cons (total : Nat) (t : String) (s : Nat)
    (rest : List (String × Nat)) :
    chapterSpans total ((t, s) :: rest) =
      (t, s, match rest with | [] => total | q :: _ => q.2 - 1) ::
        chapterSpans total rest := by
  cases rest with
  | nil => rfl
  | cons q r => cases q; rfl

theorem chapterSpans_chain (total : Nat) :
    ∀ (hs : List (String × Nat)),
      List.Pairwise (fun p q : String × Nat => p.2 < q.2) hs →
      (∀ p ∈ hs, 1 ≤ p.2 ∧ p.2 ≤ total) →
      List.Chain' (fun b c : String × Nat × Nat => c.2.1 = b.2.2 + 1)
        (chapterSpans total hs) := by
  intro hs
  induction hs with
  | nil => intro _ _; simp [chapterSpans]
  | cons p rest ih =>
    intro hp hb
    obtain ⟨t, s⟩ := p
    rw [chapterSpans_cons]
    rw [List.pairwise_cons] at hp
    rcases rest with _ | ⟨q, r⟩
    · simp [chapterSpans]
    · rw [chapterSpans_cons]
      refine List.Chain'.cons ?_ ?_
      · have hq : s < q.2 := hp.1 q (List.mem_cons_self q r)
        have hq1 : 1 ≤ q.2 := (hb q (by simp)).1
        simp only
        omega
      · have := ih hp.2 (fun x hx => hb x (List.mem_cons_of_mem _ hx))
        rwa [chapterSpans_cons] at this

theorem chapterSpans_start_le_end (total : Nat) :
    ∀ (hs : List (String × Nat)),
      List.Pairwise (fun p q : String × Nat => p.2 < q.2) hs →
      (∀ p ∈ hs, 1 ≤ p.2 ∧ p.2 ≤ total) →
      ∀ b ∈ chapterSpans total hs, b.2.1 ≤ b.2.2 := by
  intro hs
  induction hs with
  | nil => intro _ _ b hb; simp [chapterSpans] at hb
  | cons p rest ih =>
    intro hp hb b hmem
    obtain ⟨t, s⟩ := p
    rw [chapterSpans_cons] at hmem
    rw [List.pairwise_cons] at hp
    rcases List.mem_cons.mp hmem with heq | hmem'
    · subst heq
      rcases rest with _ | ⟨q, r⟩
      · have := hb (t, s) (by simp)
        simpa using this.2
      · have hq : s < q.2 := hp.1 q (List.mem_cons_self q r)
        simp only
        omega
    · exact ih hp.2 (fun x hx => hb x (List.mem_cons_of_mem _ hx)) b hmem'

theorem chain_le_pairwise_aux :
    ∀ (l : List (String × Nat × Nat)) (b : String × Nat × Nat),
      List.Chain' (fun x y : String × Nat × Nat => y.2.1 = x.2.2 + 1) (b :: l) →
      (∀ x ∈ b :: l, x.2.1 ≤ x.2.2) →
      ∀ c ∈ l, b.2.2 < c.2.1 := by
  intro l
  induction l with
  | nil => intro b _ _ c hc; simp at hc
  | cons c r ih =>
    intro b hch hle x hx
    rw [List.chain'_cons] at hch
    obtain ⟨hstep, hch'⟩ := hch
    rcases List.mem_cons.mp hx with heq | hx'
    · subst heq
      omega
    · have h2 : c.2.1 ≤ c.2.2 := hle c (by simp)
      have h3 : c.2.2 < x.2.1 :=
        ih c hch' (fun y hy => hle y (List.mem_cons_of_mem _ hy)) x hx'
      omega

theorem chain_le_pairwise :
    ∀ (bs : List (String × Nat × Nat)),
      List.Chain' (fun x y : String × Nat × Nat => y.2.1 = x.2.2 + 1) bs →
      (∀ x ∈ bs, x.2.1 ≤ x.2.2) →
      List.Pairwise (fun x y : String × Nat × Nat => x.2.2 < y.2.1) bs := by
  intro bs
  induction bs with
  | nil => intro _ _; simp
  | cons b l ih =>
    intro hch hle
    rw [List.pairwise_cons]
    exact ⟨chain_le_pairwise_aux l b hch hle,
      ih hch.tail (fun y hy => hle y (List.mem_cons_of_mem _ hy))⟩

theorem get_chapter_boundaries_empty {content : String}
    (h0 : (pySplitlines content).length = 0) :
    get_chapter_boundaries content = [("Metadata", 1, 1)] := by
  simp only [get_chapter_boundaries]
  rw [if_pos h0]

theorem get_chapter_boundaries_no_h2 {content : String}
    (h0 : (pySplitlines content).length ≠ 0)
    (hpos : h2Positions (pySplitlines content) = []) :
    get_chapter_boundaries content =
      [("Metadata", 1, (pySplitlines content).length)] := by
  simp only [get_chapter_boundaries]
  rw [if_neg h0, hpos]

theorem get_chapter_boundaries_with_h2 {content : String} {t : String} {s : Nat}
    {rest : List (String × Nat)}
    (h0 : (pySplitlines content).length ≠ 0)
    (hpos : h2Positions (pySplitlines content) = (t, s) :: rest) :
    get_chapter_boundaries content =
      (if 1 < s then [("Metadata", 1, s - 1)] else []) ++
        chapterSpans (pySplitlines content).length ((t, s) :: rest) := by
  simp only [get_chapter_boundaries]
  rw [if_neg h0, hpos]

/-! ## Claim C9 -/

/-- C9: for every input string, `get_chapter_boundaries` returns a
non-empty list whose first range starts at line 1, whose ranges are
well-formed (`start ≤ end`) and non-overlapping, and which forms a
contiguous cover: each triple's start line is exactly one greater than
the previous triple's end line.  On the empty input it returns the
single triple `("Metadata", 1, 1)` even though the input has zero
lines. -/
theorem boundaries_invariants (content : String) :
    get_chapter_boundaries content ≠ [] ∧
    ((get_chapter_boundaries content).headD ("", 0, 0)).2.1 = 1 ∧
    List.Chain' (fun b c : String × Nat × Nat => c.2.1 = b.2.2 + 1)
      (get_chapter_boundaries content) ∧
    (∀ b ∈ get_chapter_boundaries content, b.2.1 ≤ b.2.2) ∧
    List.Pairwise (fun b c : String × Nat × Nat => b.2.2 < c.2.1)
      (get_chapter_boundaries content) ∧
    get_chapter_boundaries "" = [("Metadata", 1, 1)] ∧
    pySplitlines "" = [] := by
  have hmain : get_chapter_boundaries content ≠ [] ∧
      ((get_chapter_boundaries content).headD ("", 0, 0)).2.1 = 1 ∧
      List.Chain' (fun b c : String × Nat × Nat => c.2.1 = b.2.2 + 1)
        (get_chapter_boundaries content) ∧
      (∀ b ∈ get_chapter_boundaries content, b.2.1 ≤ b.2.2) := by
    by_cases h0 : (pySplitlines content).length = 0
    · rw [get_chapter_boundaries_empty h0]
      refine ⟨by simp, rfl, by simp, ?_⟩
      intro b hb
      simp only [List.mem_singleton] at hb
      subst hb
      exact le_refl 1
    · have hpw := h2Positions_pairwise (pySplitlines content)
      have hbnd : ∀ p ∈ h2Positions (pySplitlines content),
          1 ≤ p.2 ∧ p.2 ≤ (pySplitlines content).length :=
        fun p hp => h2Positions_mem hp
      cases hpos : h2Positions (pySplitlines content) with
      | nil =>
        rw [get_chapter_boundaries_no_h2 h0 hpos]
        refine ⟨by simp, rfl, by simp, ?_⟩
        intro b hb
        simp only [List.mem_singleton] at hb
        subst hb
        simp only
        omega
      | cons p rest =>
        obtain ⟨t, s⟩ := p
        rw [get_chapter_boundaries_with_h2 h0 hpos]
        rw [hpos] at hpw hbnd
        have hch := chapterSpans_chain (pySplitlines content).length _ hpw hbnd
        have hle := chapterSpans_start_le_end (pySplitlines content).length _ hpw hbnd
        have hs1 : 1 ≤ s := (hbnd (t, s) (by simp)).1
        by_cases hgt : 1 < s
        · rw [if_pos hgt]
          refine ⟨by simp, rfl, ?_, ?_⟩
          · rw [List.singleton_append]
            rw [chapterSpans_cons]
            rw [chapterSpans_cons] at hch
            refine List.Chain'.cons ?_ hch
            simp only
            omega
          · intro b hb
            rcases List.mem_append.mp hb with hb' | hb'
            · simp only [List.mem_singleton] at hb'
              subst hb'
              simp only
              omega
            · exact hle b hb'
        · rw [if_neg hgt]
          have hs : s = 1 := by omega
          rw [List.nil_append]
          refine ⟨by rw [chapterSpans_cons]; simp, ?_, hch, hle⟩
          rw [chapterSpans_cons]
          simpa using hs
  refine ⟨hmain.1, hmain.2.1, hmain.2.2.1, hmain.2.2.2, ?_, by rfl, by rfl⟩
  exact chain_le_pairwise _ hmain.2.2.1 hmain.2.2.2

/-! ## Claim C3 -/

theorem chapterSpans_eq_map (total : Nat) :
    ∀ (hs : List (String × Nat)),
      chapterSpans total hs = (List.range hs.length).map (fun k =>
        ((hs.getD k ("", 0)).1, (hs.getD k ("", 0)).2,
          if k + 1 < hs.length then (hs.getD (k + 1) ("", 0)).2 - 1 else total)) := by
  intro hs
  induction hs with
  | nil => simp [chapterSpans]
  | cons p rest ih =>
    obtain ⟨t, s⟩ := p
    rw [chapterSpans_cons]
    rw [List.length_cons, List.range_succ_eq_map, List.map_cons, List.map_map]
    congr 1
    · simp only [List.getD_cons_zero]
      cases rest with
      | nil => simp
      | cons q r => simp [List.getD_cons_succ]
    · rw [ih]
      refine List.map_congr_left ?_
      intro k hk
      simp only [Function.comp_apply, Nat.succ_eq_add_one, List.getD_cons_succ]
      congr 1
      congr 1
      have : k + 1 + 1 < rest.length + 1 ↔ k + 1 < rest.length := by omega
      rw [if_congr this rfl rfl]

/-- C3 (counterexample): on content whose first line is itself a
second-level heading, the first triple returned by
`get_chapter_boundaries` is that heading's chapter, not `"Metadata"` —
the claimed leading `"Metadata"` triple is absent. -/
theorem boundaries_first_triple_counterexample :
    get_chapter_boundaries "## A\nx" = [("A", 1, 2)] ∧
      ("A" : String) ≠ "Metadata" := by
  exact ⟨rfl, by decide⟩

/-- C3 (amended): on the full raw content, `get_chapter_boundaries`
returns: with no second-level heading, the single triple
`("Metadata", 1, max total 1)` covering the entire file (line 1 even
when the file is empty); with headings, a triple `("Metadata", 1,
first_heading_line - 1)` — present only when the first heading is not
on line 1 — followed by one triple per heading that starts at the
heading's line and ends at the line before the next heading or at the
last line of the file. -/
theorem boundaries_characterization (content : String) :
    (h2Positions (pySplitlines content) = [] →
      get_chapter_boundaries content =
        [("Metadata", 1, max (pySplitlines content).length 1)]) ∧
    (∀ t s rest, h2Positions (pySplitlines content) = (t, s) :: rest →
      get_chapter_boundaries content =
        (if 1 < s then [("Metadata", 1, s - 1)] else []) ++
          (List.range ((t, s) :: rest).length).map (fun k =>
            ((((t, s) :: rest).getD k ("", 0)).1,
              (((t, s) :: rest).getD k ("", 0)).2,
              if k + 1 < ((t, s) :: rest).length then
                (((t, s) :: rest).getD (k + 1) ("", 0)).2 - 1
              else (pySplitlines content).length))) := by
  constructor
  · intro hpos
    by_cases h0 : (pySplitlines content).length = 0
    · rw [get_chapter_boundaries_empty h0, h0]
      rfl
    · rw [get_chapter_boundaries_no_h2 h0 hpos]
      have : max (pySplitlines content).length 1 = (pySplitlines content).length := by
        omega
      rw [this]
  · intro t s rest hpos
    have hmem : (t, s) ∈ h2Positions (pySplitlines content) := by
      rw [hpos]; simp
    have hb := h2Positions_mem hmem
    have h0 : (pySplitlines content).length ≠ 0 := by omega
    rw [get_chapter_boundaries_with_h2 h0 hpos, chapterSpans_eq_map]

/-- Witness for C3: a document with a one-line metadata block and two
chapters; the characterization instantiates to the concrete boundary
list. -/
theorem boundaries_characterization_witness :
    h2Positions (pySplitlines "x\n## A\ny\n## B") = [("A", 2), ("B", 4)] ∧
    get_chapter_boundaries "x\n## A\ny\n## B" =
      [("Metadata", 1, 1), ("A", 2, 3), ("B", 4, 4)] := by
  refine ⟨rfl, ?_⟩
  have h := (boundaries_characterization "x\n## A\ny\n## B").2 "A" 2 [("B", 4)] rfl
  rw [h]
  rfl

/-! ## Claim C4 -/

/-- C4: for every content `X` (and any diff labels), running the
chapter-partitioned diff of `diff_document_versions` with identical
content on both sides yields an empty change list — no
`(chapter_name, diff_text)` entry is emitted for any chapter. -/
theorem diff_identical_content_empty (fromfile tofile X : String) :
    diff_document_versions fromfile tofile X X = [] := by
  unfold diff_document_versions
  refine List.filterMap_eq_nil_iff.mpr ?_
  intro c _
  simp only [unified_diff_self, List.isEmpty_nil, if_true]

/-! ## Claim C7 -/

theorem foldl_max_ge (l : List Nat) :
    ∀ (a : Nat), a ≤ l.foldl Nat.max a ∧ ∀ x ∈ l, x ≤ l.foldl Nat.max a := by
  induction l with
  | nil => intro a; exact ⟨le_refl a, by simp⟩
  | cons b t ih =>
    intro a
    simp only [List.foldl_cons]
    have h := ih (Nat.max a b)
    refine ⟨le_trans (Nat.le_max_left a b) h.1, ?_⟩
    intro x hx
    rcases List.mem_cons.mp hx with heq | hx'
    · rw [heq]
      exact le_trans (Nat.le_max_right a b) h.1
    · exact h.2 x hx'

theorem foldl_max_mem (l : List Nat) :
    ∀ (a : Nat), l.foldl Nat.max a = a ∨ l.foldl Nat.max a ∈ l := by
  induction l with
  | nil => intro a; exact Or.inl rfl
  | cons b t ih =>
    intro a
    simp only [List.foldl_cons]
    rcases ih (Nat.max a b) with h | h
    · rw [h]
      rcases max_choice a b with hm | hm
      · left
        have hm2 : Nat.max a b = a := hm
        exact hm2
      · right
        have hm2 : Nat.max a b = b := hm
        rw [hm2]
        simp
    · right
      exact List.mem_cons_of_mem _ h

theorem resolve_messages_distinct (doc_id v : Nat) :
    ("Document " ++ toString doc_id ++ " not found") ≠
      ("Document " ++ toString doc_id ++ " version " ++ toString v ++ " not found") := by
  intro h
  have hd : ("Document " ++ toString doc_id ++ " not found").data.length =
      ("Document " ++ toString doc_id ++ " version " ++ toString v ++
        " not found").data.length := by rw [h]
  have e1 : ("Document " ++ toString doc_id ++ " not found").data.length =
      9 + ((toString doc_id).data.length + 10) := by
    show (("Document ".data ++ (toString doc_id).data) ++ " not found".data).length = _
    rw [List.length_append, List.length_append]
    have l1 : ("Document ".data).length = 9 := rfl
    have l2 : (" not found".data).length = 10 := rfl
    rw [l1, l2]
    omega
  have e2 : ("Document " ++ toString doc_id ++ " version " ++ toString v ++
      " not found").data.length =
      9 + ((toString doc_id).data.length + (9 + ((toString v).data.length + 10))) := by
    show (((("Document ".data ++ (toString doc_id).data) ++ " version ".data) ++
      (toString v).data) ++ " not found".data).length = _
    rw [List.length_append, List.length_append, List.length_append,
      List.length_append]
    have l1 : ("Document ".data).length = 9 := rfl
    have l2 : (" version ".data).length = 9 := rfl
    have l3 : (" not found".data).length = 10 := rfl
    rw [l1, l2, l3]
    omega
  rw [e1, e2] at hd
  omega

/-- C7: for every directory state and document id, resolving with an
absent version selects the numerically maximum version among the
enumerated files for that id — `find_document_path d id none` then
behaves exactly like an explicit request for that maximum — while with
zero enumerated versions it fails with the `"Document {id} not found"`
error; an explicitly requested version whose file does not exist fails
with the distinct `"Document {id} version {v} not found"` error. -/
theorem resolve_path_latest_and_errors (d : Dir) (doc_id : Nat) :
    ((get_all_document_files d).filterMap
        (fun f => if f.1 = doc_id then some f.2.1 else none) = [] →
      find_document_path d doc_id none =
        .error ("Document " ++ toString doc_id ++ " not found")) ∧
    (∀ v vs, (get_all_document_files d).filterMap
        (fun f => if f.1 = doc_id then some f.2.1 else none) = v :: vs →
      ∃ m, get_latest_version d doc_id = some m ∧ m ∈ v :: vs ∧
        (∀ w ∈ v :: vs, w ≤ m) ∧
        find_document_path d doc_id none = find_document_path d doc_id (some m)) ∧
    (∀ v, pathExists d (docFileName doc_id v) = false →
      find_document_path d doc_id (some v) =
        .error ("Document " ++ toString doc_id ++ " version " ++ toString v ++
          " not found")) ∧
    (∀ v : Nat, ("Document " ++ toString doc_id ++ " not found") ≠
      ("Document " ++ toString doc_id ++ " version " ++ toString v ++ " not found")) := by
  refine ⟨?_, ?_, ?_, fun v => resolve_messages_distinct doc_id v⟩
  · intro hnil
    have hlat : get_latest_version d doc_id = none := by
      unfold get_latest_version
      rw [hnil]
    unfold find_document_path
    rw [hlat]
  · intro v vs hcons
    have hlat : get_latest_version d doc_id = some (vs.foldl Nat.max v) := by
      unfold get_latest_version
      rw [hcons]
    refine ⟨vs.foldl Nat.max v, hlat, ?_, ?_, ?_⟩
    · rcases foldl_max_mem vs v with h | h
      · rw [h]; simp
      · exact List.mem_cons_of_mem _ h
    · intro w hw
      rcases List.mem_cons.mp hw with heq | hw'
      · subst heq
        exact (foldl_max_ge vs w).1
      · exact (foldl_max_ge vs v).2 w hw'
    · unfold find_document_path
      rw [hlat]
  · intro v hne
    unfold find_document_path
    dsimp only
    rw [hne]
    simp

/-- Witness for C7: a directory holding versions 1 and 2 of document
1001.  Resolution with no version behaves like an explicit request for
version 2; an unknown id yields the not-found error; an explicit
missing version yields the distinct version-not-found error. -/
theorem resolve_path_witness :
    find_document_path ⟨true, false, false, []⟩ 9 none =
      .error "Document 9 not found" ∧
    find_document_path
        ⟨true, false, false, [⟨"1001_v1.md", true, false, "", false⟩,
          ⟨"1001_v2.md", true, false, "", false⟩]⟩ 1001 none =
      find_document_path
        ⟨true, false, false, [⟨"1001_v1.md", true, false, "", false⟩,
          ⟨"1001_v2.md", true, false, "", false⟩]⟩ 1001 (some 2) ∧
    find_document_path
        ⟨true, false, false, [⟨"1001_v1.md", true, false, "", false⟩,
          ⟨"1001_v2.md", true, false, "", false⟩]⟩ 1001 (some 5) =
      .error "Document 1001 version 5 not found" := by
  refine ⟨?_, ?_, ?_⟩
  · exact (resolve_path_latest_and_errors ⟨true, false, false, []⟩ 9).1 rfl
  · obtain ⟨m, hm, _, _, heq⟩ :=
      (resolve_path_latest_and_errors
        ⟨true, false, false, [⟨"1001_v1.md", true, false, "", false⟩,
          ⟨"1001_v2.md", true, false, "", false⟩]⟩ 1001).2.1 1 [2] rfl
    have hl : get_latest_version
        ⟨true, false, false, [⟨"1001_v1.md", true, false, "", false⟩,
          ⟨"1001_v2.md", true, false, "", false⟩]⟩ 1001 = some 2 := rfl
    have hm2 : m = 2 := by
      have := hm.symm.trans hl
      injection this
    rw [hm2] at heq
    exact heq
  · exact (resolve_path_latest_and_errors
      ⟨true, false, false, [⟨"1001_v1.md", true, false, "", false⟩,
        ⟨"1001_v2.md", true, false, "", false⟩]⟩ 1001).2.2.1 5 rfl

/-! ## Claim C8 -/

theorem parseFilename_glob {name : String} {p : Nat × Nat}
    (h : parseFilename name = some p) : globMD name = true := by
  unfold parseFilename at h
  dsimp only at h
  split at h
  · next r2 heq =>
    split at h
    · exact absurd h (by simp)
    · split at h
      · next hdot =>
        have hname : name.data =
            name.data.takeWhile Char.isDigit ++
              ('_' :: 'v' :: (r2.takeWhile Char.isDigit ++ ['.', 'm', 'd'])) := by
          conv_lhs => rw [← List.takeWhile_append_dropWhile (p := Char.isDigit)
            (l := name.data)]
          rw [heq]
          congr 2
          conv_lhs => rw [← List.takeWhile_append_dropWhile (p := Char.isDigit)
            (l := r2)]
          rw [hdot]
        unfold globMD
        rw [hname]
        simp [List.reverse_append]
      · exact absurd h (by simp)
  · exact absurd h (by simp)

theorem parseFilename_glob_contra {name : String}
    (h : globMD name = false) : parseFilename name = none := by
  cases hp : parseFilename name with
  | none => rfl
  | some p => rw [parseFilename_glob hp] at h; exact absurd h (by simp)

/-- C8: for every directory state, enumeration returns exactly the
entries whose filename matches `^(\d+)_v(\d+)\.md$` in full and that
are regular files; it never raises for I/O reasons — a failure injected
at the directory-existence check or the listing step yields the empty
result, and a per-entry `is_file` failure skips only that entry (the
characterization is a `filterMap` over the surviving entries in order).
The `*.md` glob prefilter is redundant: a name accepted by the filename
pattern necessarily ends in `.md`. -/
theorem enumeration_characterization (d : Dir) :
    (d.existsFails = true → get_all_document_files d = []) ∧
    (d.dirExists = false → get_all_document_files d = []) ∧
    (d.listFails = true → get_all_document_files d = []) ∧
    (d.existsFails = false → d.dirExists = true → d.listFails = false →
      get_all_document_files d = d.entries.filterMap (fun e =>
        if e.statFails then none
        else if e.isFile then
          (parseFilename e.name).map (fun p => (p.1, p.2, e))
        else none)) := by
  refine ⟨?_, ?_, ?_, ?_⟩
  · intro h
    unfold get_all_document_files
    rw [h]
    rfl
  · intro h
    unfold get_all_document_files
    rw [h]
    by_cases he : d.existsFails
    · rw [if_pos he]
    · rw [if_neg he]
      rfl
  · intro h
    unfold get_all_document_files
    rw [h]
    by_cases he : d.existsFails
    · rw [if_pos he]
    · rw [if_neg he]
      by_cases hd : d.dirExists
      · rw [hd]
        rfl
      · simp only [Bool.not_eq_true] at hd
        rw [hd]
        rfl
  · intro he hd hl
    unfold get_all_document_files
    rw [he, hd, hl, if_neg (by simp)]
    simp only [Bool.not_true, Bool.false_eq_true, if_false]
    refine List.filterMap_congr ?_
    intro e _
    by_cases hg : globMD e.name
    · rw [if_neg (by simp [hg])]
      by_cases hs : e.statFails
      · rw [if_pos hs, if_pos hs]
      · rw [if_neg hs, if_neg hs]
        cases hf : e.isFile <;> simp
    · simp only [Bool.not_eq_true] at hg
      rw [if_pos (by simp [hg])]
      rw [parseFilename_glob_contra hg]
      by_cases hs : e.statFails
      · rw [if_pos hs]
      · rw [if_neg hs]
        cases hf : e.isFile <;> simp

/-- Witness for C8: the spec's scenario — `readme.md` beside
`2001_v1.md` — extended with a directory named like a document and an
entry whose `is_file` check fails: enumeration returns exactly the one
real document file; a directory whose existence check raises
enumerates to nothing. -/
theorem enumeration_characterization_witness :
    get_all_document_files
        ⟨true, false, false,
          [⟨"readme.md", true, false, "", false⟩,
           ⟨"2001_v1.md", true, false, "", false⟩,
           ⟨"3_v1.md", false, false, "", false⟩,
           ⟨"4_v1.md", true, true, "", false⟩]⟩ =
      [(2001, 1, ⟨"2001_v1.md", true, false, "", false⟩)] ∧
    get_all_document_files ⟨true, true, false,
      [⟨"2001_v1.md", true, false, "", false⟩]⟩ = [] := by
  constructor
  · rw [(enumeration_characterization
      ⟨true, false, false,
        [⟨"readme.md", true, false, "", false⟩,
         ⟨"2001_v1.md", true, false, "", false⟩,
         ⟨"3_v1.md", false, false, "", false⟩,
         ⟨"4_v1.md", true, true, "", false⟩]⟩).2.2.2 rfl rfl rfl]
    rfl
  · exact (enumeration_characterization ⟨true, true, false,
      [⟨"2001_v1.md", true, false, "", false⟩]⟩).1 rfl

/-! ## Claim C10 -/

theorem finditerH2_nil :
    ∀ (lines : List String), (∀ l ∈ lines, strStartsWith l "##" = false) →
      ∀ i, finditerH2 i lines = [] := by
  intro lines
  induction lines with
  | nil => intro _ i; simp [finditerH2]
  | cons l ls ih =>
    intro hb i
    have hl : strStartsWith l "##" = false := hb l (by simp)
    simp only [finditerH2, hl, Bool.false_eq_true, if_false]
    exact ih (fun x hx => hb x (by simp [hx])) (i + 1)

theorem no_hh_no_h2Title {l : String} (h : strStartsWith l "##" = false) :
    h2Title? l = none := by
  unfold h2Title?
  rw [h]
  rfl

theorem extract_no_headings {body : String}
    (hb : finditerH2 0 (splitChar '\n' body) = []) (title : String) :
    extract_chapter_content body title = none := by
  simp only [extract_chapter_content]
  rw [hb]
  rfl

theorem line_map_singleton (t : String) (a b n : Nat) (h1 : a ≤ n) (h2 : n ≤ b) :
    get_line_to_chapter_map [(t, a, b)] n = some t := by
  unfold get_line_to_chapter_map
  rw [List.reverse_singleton, List.find?_cons_of_pos _ (by simp [h1, h2])]
  rfl

/-- C10: for a document body containing no second-level heading — no
match of the multiline `HEADING_PATTERN` anywhere in it — chapter
extraction returns `none` for every requested title — including
`"Metadata"` — so `get_chapter_content` reports a `CHAPTER_NOT_FOUND`
error; yet when the raw content likewise has no line matching the
per-line heading test of the boundary scanner, the diff partitioner's
boundary map assigns every line of that document to the synthetic
`"Metadata"` chapter. -/
theorem chapter_not_found_despite_metadata (d : Dir) (document_id : Nat)
    (version : Option Nat) (path : String) (rv : Nat) (e : Entry)
    (fm : List (String × FMValue)) (body : String)
    (hfind : find_document_path d document_id version = .ok (path, rv))
    (hent : d.entries.find? (fun en => en.name = path) = some e)
    (hrf : e.readFails = false)
    (hfm : parse_frontmatter e.content = .ok (fm, body))
    (hb : finditerH2 0 (splitChar '\n' body) = []) :
    (∀ title, get_chapter_content d document_id title version =
      .error ⟨"CHAPTER_NOT_FOUND",
        "Chapter " ++ squote ++ title ++ squote ++ " not found in document " ++
          toString document_id⟩) ∧
    ((∀ l ∈ pySplitlines e.content, h2Title? l = none) →
      get_chapter_boundaries e.content =
        [("Metadata", 1, max (pySplitlines e.content).length 1)] ∧
      ∀ n, 1 ≤ n → n ≤ (pySplitlines e.content).length →
        get_line_to_chapter_map (get_chapter_boundaries e.content) n =
          some "Metadata") := by
  constructor
  · intro title
    unfold get_chapter_content readEntry
    rw [hfind]
    simp only [hent, hrf, hfm, Bool.false_eq_true, if_false,
      extract_no_headings hb title]
  · intro hc
    have hpos : h2Positions (pySplitlines e.content) = [] := by
      refine List.filterMap_eq_nil_iff.mpr ?_
      intro p hp
      rw [hc p.2 (enumFrom_mem_snd hp)]
      rfl
    by_cases h0 : (pySplitlines e.content).length = 0
    · have hbs := get_chapter_boundaries_empty h0
      refine ⟨by rw [hbs, h0]; simp, ?_⟩
      intro n hn1 hn2
      omega
    · have hbs := get_chapter_boundaries_no_h2 h0 hpos
      have hmax : max (pySplitlines e.content).length 1 =
          (pySplitlines e.content).length := by omega
      refine ⟨by rw [hbs, hmax], ?_⟩
      intro n hn1 hn2
      rw [hbs]
      exact line_map_singleton _ _ _ _ hn1 hn2

/-- Witness for C10: a one-document directory whose document has
frontmatter and a title but no chapters.  Requesting the `"Metadata"`
chapter fails with `CHAPTER_NOT_FOUND`, while the boundary map of the
same content puts all four lines in `"Metadata"`. -/
theorem chapter_not_found_despite_metadata_witness :
    get_chapter_content
        ⟨true, false, false,
          [⟨"3_v1.md", true, false, "---\nauthor: X\n---\n# Three", false⟩]⟩
        3 "Metadata" none =
      .error ⟨"CHAPTER_NOT_FOUND",
        "Chapter " ++ squote ++ "Metadata" ++ squote ++
          " not found in document " ++ toString 3⟩ ∧
    get_chapter_boundaries "---\nauthor: X\n---\n# Three" =
      [("Metadata", 1, max (pySplitlines "---\nauthor: X\n---\n# Three").length 1)] := by
  have h := chapter_not_found_despite_metadata
    ⟨true, false, false,
      [⟨"3_v1.md", true, false, "---\nauthor: X\n---\n# Three", false⟩]⟩
    3 none "3_v1.md" 1 ⟨"3_v1.md", true, false, "---\nauthor: X\n---\n# Three", false⟩
    [("author", .str "X")] "# Three" rfl rfl rfl rfl
    (by
      have hs : splitChar '\n' "# Three" = ["# Three"] := rfl
      rw [hs]
      exact finditerH2_nil ["# Three"] (by intro l hl; fin_cases hl; rfl) 0)
  refine ⟨h.1 "Metadata", ?_⟩
  exact (h.2 (by intro l hl; fin_cases hl <;> rfl)).1

/-! ## Claim C1 -/

theorem filterMap_bind_filter {α β : Type} (f g : α → Option β) (p : β → Bool)
    (hfg : ∀ x, g x = (f x).bind (fun y => if p y then some y else none)) :
    ∀ (l : List α), l.filterMap g = (l.filterMap f).filter p := by
  intro l
  induction l with
  | nil => rfl
  | cons a t ih =>
    rw [List.filterMap_cons, List.filterMap_cons]
    cases hf : f a with
    | none =>
      have hg : g a = none := by rw [hfg, hf]; rfl
      rw [hg, ih]
    | some y =>
      have hg : g a = if p y then some y else none := by rw [hfg, hf]; rfl
      cases hp : p y with
      | true =>
        rw [hg, if_pos hp, List.filter_cons_of_pos hp, ih]
      | false =>
        rw [hg, if_neg (by simp [hp]), List.filter_cons_of_neg (by simp [hp]), ih]

/-- C1 (counterexample): listing with `status="Approved"` over a
directory whose only document has no `status` frontmatter returns that
document (its status defaulted to `"NA"`), so documents whose status is
absent are *not* excluded. -/
theorem list_documents_status_counterexample :
    scan_documents
        ⟨true, false, false,
          [⟨"7_v1.md", true, false, "---\nauthor: A\n---\n# T", false⟩]⟩
        (some "Approved") none none =
      [⟨7, "T", 1, .str "NA", .str "NA"⟩] ∧
    FMValue.str "NA" ≠ FMValue.str "Approved" := by
  exact ⟨rfl, by decide⟩

/-- C1 (amended): for every directory state and non-empty status
string, listing with that status filter returns exactly the summaries
of the unfiltered listing whose status equals the filter value *or* is
the `"NA"` sentinel (status absent) — the filter is skipped for
documents whose status is absent, so only documents with a present,
different status (e.g. `Draft` against `"Approved"`) are excluded. -/
theorem list_documents_status_filter (d : Dir) (s : String) (hs : s ≠ "") :
    scan_documents d (some s) none none =
      (scan_documents d none none none).filter
        (fun summ => decide (summ.status = .str "NA") ||
          decide (summ.status = .str s)) := by
  unfold scan_documents
  refine filterMap_bind_filter _ _ _ ?_ _
  intro g
  obtain ⟨doc_id, versions⟩ := g
  cases versions with
  | nil => rfl
  | cons v0 vs =>
    dsimp only
    cases hre : readEntry (pyMaxByFst v0 vs).2 with
    | error msg => rfl
    | ok content =>
      dsimp only
      cases hfm : parse_frontmatter content with
      | error msg => rfl
      | ok pr =>
        obtain ⟨fm, body⟩ := pr
        dsimp only
        cases ht : parse_title body with
        | error msg => rfl
        | ok doc_title =>
          dsimp only
          have htruthy : pyTruthy (some s) = true := by
            simp [pyTruthy, hs]
          rw [show pyTruthy none = false from rfl]
          simp only [Bool.false_eq_true, false_and, if_false]
          by_cases hna : fmGetD fm "status" (.str "NA") = FMValue.str "NA"
          · rw [if_neg (fun hC => hC.2.1 hna)]
            simp [hna]
          · by_cases hss : fmGetD fm "status" (.str "NA") = FMValue.str s
            · rw [if_neg (fun hC => hC.2.2 hss)]
              simp [hss]
            · rw [if_pos ⟨htruthy, hna, fun h => hss h⟩]
              simp [hna, hss]

/-- Witness for C1: over documents with statuses `Draft`, `Approved`
and absent, filtering by `"Approved"` returns the `Approved` document
and the absent-status document, excluding only `Draft`. -/
theorem list_documents_status_filter_witness :
    ("Approved" : String) ≠ "" ∧
    scan_documents
        ⟨true, false, false,
          [⟨"1_v1.md", true, false, "---\nstatus: Draft\n---\n# One", false⟩,
           ⟨"2_v1.md", true, false, "---\nstatus: Approved\n---\n# Two", false⟩,
           ⟨"3_v1.md", true, false, "---\nauthor: X\n---\n# Three", false⟩]⟩
        (some "Approved") none none =
      (scan_documents
        ⟨true, false, false,
          [⟨"1_v1.md", true, false, "---\nstatus: Draft\n---\n# One", false⟩,
           ⟨"2_v1.md", true, false, "---\nstatus: Approved\n---\n# Two", false⟩,
           ⟨"3_v1.md", true, false, "---\nauthor: X\n---\n# Three", false⟩]⟩
        none none none).filter
        (fun summ => decide (summ.status = .str "NA") ||
          decide (summ.status = .str "Approved")) ∧
    scan_documents
        ⟨true, false, false,
          [⟨"1_v1.md", true, false, "---\nstatus: Draft\n---\n# One", false⟩,
           ⟨"2_v1.md", true, false, "---\nstatus: Approved\n---\n# Two", false⟩,
           ⟨"3_v1.md", true, false, "---\nauthor: X\n---\n# Three", false⟩]⟩
        (some "Approved") none none =
      [⟨2, "Two", 1, .str "Approved", .str "NA"⟩,
       ⟨3, "Three", 1, .str "NA", .str "NA"⟩] := by
  refine ⟨by decide, ?_, rfl⟩
  exact list_documents_status_filter
    ⟨true, false, false,
      [⟨"1_v1.md", true, false, "---\nstatus: Draft\n---\n# One", false⟩,
       ⟨"2_v1.md", true, false, "---\nstatus: Approved\n---\n# Two", false⟩,
       ⟨"3_v1.md", true, false, "---\nauthor: X\n---\n# Three", false⟩]⟩
    "Approved" (by decide)

/-! ## Claim C5: helper lemmas -/

theorem filterMap_enum_all {F : Nat × String → Option String} :
    ∀ (l : List String) (n : Nat), (∀ p ∈ enumFrom n l, F p = some p.2) →
      List.filterMap F (enumFrom n l) = l := by
  intro l
  induction l with
  | nil => intro n _; rfl
  | cons x xs ih =>
    intro n hall
    show List.filterMap F ((n, x) :: enumFrom (n + 1) xs) = x :: xs
    rw [List.filterMap_cons]
    rw [hall (n, x) (by simp [enumFrom])]
    rw [ih (n + 1) (fun p hp => hall p (by simp [enumFrom, hp]))]

theorem enum_split (meta body : List String) (hLine : String) :
    enumFrom 1 (meta ++ hLine :: body) =
      enumFrom 1 meta ++
        ((meta.length + 1, hLine) :: enumFrom (meta.length + 2) body) := by
  rw [enumFrom_append]
  congr 1
  have h1 : 1 + meta.length = meta.length + 1 := by omega
  rw [h1]
  rfl

theorem spansTo_append_chapterSpans (total : Nat) :
    ∀ (xs : List (String × Nat)) (t : String) (s : Nat)
      (ys : List (String × Nat)),
      chapterSpans total (xs ++ (t, s) :: ys) =
        spansTo s xs ++ chapterSpans total ((t, s) :: ys) := by
  intro xs
  induction xs with
  | nil => intro t s ys; simp [spansTo]
  | cons p xs' ih =>
    intro t s ys
    obtain ⟨a, b⟩ := p
    cases xs' with
    | nil =>
      simp only [List.cons_append, List.nil_append]
      rw [chapterSpans_cons]
      simp [spansTo]
    | cons q xs'' =>
      obtain ⟨c, d⟩ := q
      simp only [List.cons_append]
      rw [chapterSpans_cons]
      dsimp only
      have ih' := ih t s ys
      simp only [List.cons_append] at ih'
      rw [ih']
      rfl

theorem spansTo_mem (nxt : Nat) :
    ∀ (xs : List (String × Nat)) (b : String × Nat × Nat),
      b ∈ spansTo nxt xs → (b.1, b.2.1) ∈ xs := by
  intro xs
  induction xs with
  | nil => intro b hb; simp [spansTo] at hb
  | cons p xs' ih =>
    intro b hb
    obtain ⟨a, s⟩ := p
    cases xs' with
    | nil =>
      simp only [spansTo, List.mem_singleton] at hb
      subst hb
      simp
    | cons q xs'' =>
      obtain ⟨c, d⟩ := q
      simp only [spansTo, List.mem_cons] at hb
      rcases hb with hb | hb
      · subst hb; simp
      · exact List.mem_cons_of_mem _ (ih b hb)

theorem chapterSpans_mem (total : Nat) :
    ∀ (hs : List (String × Nat)) (b : String × Nat × Nat),
      b ∈ chapterSpans total hs → (b.1, b.2.1) ∈ hs := by
  intro hs
  induction hs with
  | nil => intro b hb; simp [chapterSpans] at hb
  | cons p hs' ih =>
    intro b hb
    obtain ⟨a, s⟩ := p
    rw [chapterSpans_cons] at hb
    rcases List.mem_cons.mp hb with hb | hb
    · subst hb; simp
    · exact List.mem_cons_of_mem _ (ih b hb)

theorem heading_list_mem {lines : List String} {k : Nat} {p : String × Nat}
    (h : p ∈ (enumFrom k lines).filterMap
      (fun q => (h2Title? q.2).map (fun u => (u, q.1)))) :
    (∃ l ∈ lines, h2Title? l = some p.1) ∧ k ≤ p.2 := by
  obtain ⟨a, ha, hfa⟩ := List.mem_filterMap.mp h
  rcases Option.map_eq_some'.mp hfa with ⟨u, hu, hup⟩
  subst hup
  exact ⟨⟨a.2, enumFrom_mem_snd ha, hu⟩, (enumFrom_mem_bounds ha).1⟩

theorem h2Positions_split (A B C : List String) (x nm : String)
    (hB : ∀ l ∈ B, h2Title? l = none) (hx : h2Title? x = some nm) :
    h2Positions (A ++ x :: (B ++ C)) =
      h2Positions A ++ (nm, A.length + 1) ::
        (enumFrom (A.length + 2 + B.length) C).filterMap
          (fun p => (h2Title? p.2).map (fun u => (u, p.1))) := by
  unfold h2Positions
  rw [enum_split A (B ++ C) x]
  rw [List.filterMap_append, List.filterMap_cons]
  rw [enumFrom_append B]
  rw [List.filterMap_append]
  have hBnil : (enumFrom (A.length + 2) B).filterMap
      (fun p => (h2Title? p.2).map (fun u => (u, p.1))) = [] :=
    List.filterMap_eq_nil_iff.mpr
      (fun p hp => by rw [hB p.2 (enumFrom_mem_snd hp)]; rfl)
  rw [hBnil, hx]
  rfl

theorem get_chapter_boundaries_split {content : String}
    {PRE POST : List (String × Nat)} {nm : String} {s : Nat}
    (h0 : (pySplitlines content).length ≠ 0)
    (hpos : h2Positions (pySplitlines content) = PRE ++ (nm, s) :: POST) :
    get_chapter_boundaries content =
      ((if 1 < (PRE.map Prod.snd).headD s then
          [("Metadata", 1, (PRE.map Prod.snd).headD s - 1)] else []) ++
        spansTo s PRE) ++
        chapterSpans (pySplitlines content).length ((nm, s) :: POST) := by
  cases PRE with
  | nil =>
    rw [get_chapter_boundaries_with_h2 h0 (by simpa using hpos)]
    simp [spansTo]
  | cons p0 PRE' =>
    obtain ⟨t0, s0⟩ := p0
    have hpos' : h2Positions (pySplitlines content) =
        (t0, s0) :: (PRE' ++ (nm, s) :: POST) := by
      rw [hpos]
      simp only [List.cons_append]
    rw [get_chapter_boundaries_with_h2 h0 hpos']
    have hsp := spansTo_append_chapterSpans (pySplitlines content).length
      ((t0, s0) :: PRE') nm s POST
    simp only [List.cons_append] at hsp
    rw [hsp]
    simp only [List.map_cons, List.headD_cons, List.append_assoc]

theorem dedupFirstAux_congr :
    ∀ (l s1 s2 : List String), (∀ a, a ∈ s1 ↔ a ∈ s2) →
      dedupFirstAux s1 l = dedupFirstAux s2 l := by
  intro l
  induction l with
  | nil => intro _ _ _; rfl
  | cons x xs ih =>
    intro s1 s2 hs
    simp only [dedupFirstAux]
    by_cases hx : x ∈ s1
    · rw [if_pos hx, if_pos ((hs x).mp hx)]
      exact ih s1 s2 hs
    · rw [if_neg hx, if_neg (fun hc => hx ((hs x).mpr hc))]
      refine congrArg (x :: ·) (ih _ _ ?_)
      intro a
      simp only [List.mem_cons]
      exact or_congr Iff.rfl (hs a)

theorem dedupFirstAux_append :
    ∀ (xs seen ys : List String),
      dedupFirstAux seen (xs ++ ys) =
        dedupFirstAux seen xs ++ dedupFirstAux (xs ++ seen) ys := by
  intro xs
  induction xs with
  | nil => intro seen ys; simp [dedupFirstAux]
  | cons x xs' ih =>
    intro seen ys
    simp only [List.cons_append, List.append_eq, dedupFirstAux]
    by_cases hx : x ∈ seen
    · rw [if_pos hx, if_pos hx, ih]
      refine congrArg _ (dedupFirstAux_congr ys _ _ ?_)
      intro a
      simp only [List.mem_append, List.mem_cons]
      constructor
      · tauto
      · rintro (rfl | h)
        · exact Or.inr hx
        · exact h
    · rw [if_neg hx, if_neg hx, ih]
      simp only [List.cons_append]
      refine congrArg _ (congrArg _ (dedupFirstAux_congr ys _ _ ?_))
      intro a
      simp only [List.mem_append, List.mem_cons]
      tauto

theorem dedupFirstAux_all_seen :
    ∀ (l seen : List String), (∀ x ∈ l, x ∈ seen) →
      dedupFirstAux seen l = [] := by
  intro l
  induction l with
  | nil => intro _ _; rfl
  | cons x xs ih =>
    intro seen hall
    simp only [dedupFirstAux]
    rw [if_pos (hall x (by simp))]
    exact ih seen (fun y hy => hall y (by simp [hy]))

theorem dedupFirstAux_mem_iff :
    ∀ (l seen : List String) (x : String),
      x ∈ dedupFirstAux seen l ↔ x ∈ l ∧ x ∉ seen := by
  intro l
  induction l with
  | nil => intro seen x; simp [dedupFirstAux]
  | cons a t ih =>
    intro seen x
    simp only [dedupFirstAux]
    by_cases ha : a ∈ seen
    · rw [if_pos ha, ih]
      simp only [List.mem_cons]
      constructor
      · rintro ⟨hx, hns⟩; exact ⟨Or.inr hx, hns⟩
      · rintro ⟨hx | hx, hns⟩
        · exact absurd (hx ▸ ha) hns
        · exact ⟨hx, hns⟩
    · rw [if_neg ha]
      simp only [List.mem_cons, ih]
      constructor
      · rintro (rfl | ⟨hx, hns⟩)
        · exact ⟨Or.inl rfl, ha⟩
        · refine ⟨Or.inr hx, fun hc => hns (by simp [hc])⟩
      · rintro ⟨rfl | hx, hns⟩
        · exact Or.inl rfl
        · by_cases hxa : x = a
          · exact Or.inl hxa
          · refine Or.inr ⟨hx, ?_⟩
            simp only [List.mem_cons, not_or]
            exact ⟨hxa, hns⟩

theorem dedupFirstAux_nodup :
    ∀ (l seen : List String), (dedupFirstAux seen l).Nodup := by
  intro l
  induction l with
  | nil => intro _; simp [dedupFirstAux]
  | cons a t ih =>
    intro seen
    simp only [dedupFirstAux]
    by_cases ha : a ∈ seen
    · rw [if_pos ha]; exact ih seen
    · rw [if_neg ha]
      refine List.nodup_cons.mpr ⟨?_, ih _⟩
      intro hc
      have := (dedupFirstAux_mem_iff t (a :: seen) a).mp hc
      simp at this

theorem filterMap_eq_single {β : Type} (g : String → Option β) (v : β)
    (a : String) :
    ∀ (M : List String), M.Nodup → a ∈ M → g a = some v →
      (∀ x ∈ M, x ≠ a → g x = none) → M.filterMap g = [v] := by
  intro M
  induction M with
  | nil => intro _ hm; cases hm
  | cons m t ih =>
    intro hnd hmem hga hother
    have hnd' := List.nodup_cons.mp hnd
    rw [List.filterMap_cons]
    rcases List.mem_cons.mp hmem with heq | hmem'
    · subst heq
      rw [hga]
      rw [List.filterMap_eq_nil_iff.mpr
        (fun x hx => hother x (List.mem_cons_of_mem _ hx)
          (fun hxa => hnd'.1 (hxa ▸ hx)))]
    · have hma : m ≠ a := fun h => hnd'.1 (h ▸ hmem')
      rw [hother m (List.mem_cons_self m t) hma]
      exact ih hnd'.2 hmem' hga
        (fun x hx hxa => hother x (List.mem_cons_of_mem _ hx) hxa)

theorem filterMap_append_single {β : Type} (g : String → Option β)
    (M : List String) (a b : String) (v w : β)
    (hnd : M.Nodup) (hmem : a ∈ M) (hga : g a = some v)
    (hother : ∀ x ∈ M, x ≠ a → g x = none) (hgb : g b = some w) :
    (M ++ [b]).filterMap g = [v, w] := by
  rw [List.filterMap_append, filterMap_eq_single g v a M hnd hmem hga hother]
  simp [hgb]

theorem filterMap_enum_none {M : Nat → Option String} {ch : String}
    (seg : List String) (k : Nat)
    (hn : ∀ n, k ≤ n → n < k + seg.length → M n ≠ some ch) :
    (enumFrom k seg).filterMap
      (fun p => if M p.1 = some ch then some p.2 else none) = [] := by
  refine List.filterMap_eq_nil_iff.mpr ?_
  intro p hp
  have hb := enumFrom_mem_bounds hp
  rw [if_neg (hn p.1 hb.1 hb.2)]

theorem filterMap_enum_keep {M : Nat → Option String} {ch : String}
    (seg : List String) (k : Nat)
    (hn : ∀ n, k ≤ n → n < k + seg.length → M n = some ch) :
    (enumFrom k seg).filterMap
      (fun p => if M p.1 = some ch then some p.2 else none) = seg := by
  refine filterMap_enum_all seg k ?_
  intro p hp
  have hb := enumFrom_mem_bounds hp
  rw [if_pos (hn p.1 hb.1 hb.2)]

theorem filterMap_enum_congr2 {M1 M2 : Nat → Option String} {ch : String}
    (seg : List String) (k : Nat)
    (hn : ∀ n, k ≤ n → n < k + seg.length → M1 n = M2 n) :
    (enumFrom k seg).filterMap
      (fun p => if M1 p.1 = some ch then some p.2 else none) =
      (enumFrom k seg).filterMap
        (fun p => if M2 p.1 = some ch then some p.2 else none) := by
  refine List.filterMap_congr ?_
  intro p hp
  have hb := enumFrom_mem_bounds hp
  rw [hn p.1 hb.1 hb.2]

theorem line_map_mem {bs : List (String × Nat × Nat)} {n : Nat} {c : String}
    (h : get_line_to_chapter_map bs n = some c) : ∃ b ∈ bs, b.1 = c := by
  unfold get_line_to_chapter_map at h
  rcases hf : bs.reverse.find?
      (fun b => decide (b.2.1 ≤ n) && decide (n ≤ b.2.2)) with _ | b
  · rw [hf] at h; cases h
  · rw [hf] at h
    have hb := List.mem_of_find?_eq_some hf
    rw [List.mem_reverse] at hb
    exact ⟨b, hb, by simpa using h⟩

theorem line_map_mid_on (P Q : List (String × Nat × Nat)) (nm : String)
    (s e n : Nat) (hs : s ≤ n) (he : n ≤ e)
    (hQ : ∀ b ∈ Q, n < b.2.1) :
    get_line_to_chapter_map (P ++ (nm, s, e) :: Q) n = some nm := by
  unfold get_line_to_chapter_map
  rw [List.reverse_append, List.reverse_cons, List.find?_append,
    List.find?_append]
  have hQn : Q.reverse.find?
      (fun b => decide (b.2.1 ≤ n) && decide (n ≤ b.2.2)) = none := by
    rw [List.find?_eq_none]
    intro b hb
    have := hQ b (List.mem_reverse.mp hb)
    simp only [Bool.and_eq_true, decide_eq_true_eq]
    omega
  rw [hQn, List.find?_cons_of_pos _ (by simp [hs, he])]
  rfl

theorem line_map_mid_off_ne (P Q : List (String × Nat × Nat))
    (nm ch : String) (s e n : Nat) (hoff : n < s ∨ e < n)
    (hP : ∀ b ∈ P, b.1 ≠ ch) (hQ : ∀ b ∈ Q, b.1 ≠ ch) :
    get_line_to_chapter_map (P ++ (nm, s, e) :: Q) n ≠ some ch := by
  intro h
  unfold get_line_to_chapter_map at h
  rcases hf : (P ++ (nm, s, e) :: Q).reverse.find?
      (fun b => decide (b.2.1 ≤ n) && decide (n ≤ b.2.2)) with _ | b
  · rw [hf] at h; cases h
  · rw [hf] at h
    have hname : b.1 = ch := by simpa using h
    have hpred := List.find?_some hf
    simp only [Bool.and_eq_true, decide_eq_true_eq] at hpred
    have hbm := List.mem_of_find?_eq_some hf
    rw [List.mem_reverse] at hbm
    rcases List.mem_append.mp hbm with hbP | hbm'
    · exact hP b hbP hname
    · rcases List.mem_cons.mp hbm' with heq | hbQ
      · subst heq
        dsimp only at hpred
        omega
      · exact hQ b hbQ hname

theorem line_map_mid_irrel (P Q : List (String × Nat × Nat))
    (nm1 nm2 : String) (s e n : Nat) (hoff : n < s ∨ e < n) :
    get_line_to_chapter_map (P ++ (nm1, s, e) :: Q) n =
      get_line_to_chapter_map (P ++ (nm2, s, e) :: Q) n := by
  unfold get_line_to_chapter_map
  rw [List.reverse_append, List.reverse_cons, List.find?_append,
    List.find?_append, List.reverse_append, List.reverse_cons,
    List.find?_append, List.find?_append]
  have hmid : ∀ nm0 : String,
      [((nm0, s, e) : String × Nat × Nat)].find?
        (fun b => decide (b.2.1 ≤ n) && decide (n ≤ b.2.2)) = none := by
    intro nm0
    rw [List.find?_eq_none]
    intro b hb
    rw [List.mem_singleton] at hb
    subst hb
    simp only [Bool.and_eq_true, decide_eq_true_eq]
    omega
  rw [hmid nm1, hmid nm2]

theorem h2Positions_single (meta body : List String) (hLine nm : String)
    (h3 : ∀ l ∈ meta, h2Title? l = none)
    (h4 : ∀ l ∈ body, h2Title? l = none)
    (h5 : h2Title? hLine = some nm) :
    h2Positions (meta ++ hLine :: body) = [(nm, meta.length + 1)] := by
  unfold h2Positions
  rw [enum_split, List.filterMap_append, List.filterMap_cons]
  rw [List.filterMap_eq_nil_iff.mpr
    (fun p hp => by rw [h3 p.2 (enumFrom_mem_snd hp)]; rfl)]
  rw [List.filterMap_eq_nil_iff.mpr
    (fun p hp => by rw [h4 p.2 (enumFrom_mem_snd hp)]; rfl)]
  simp only [h5, Option.map_some, List.nil_append, List.append_nil]
  rfl

theorem line_map_two_chap (nm : String) (m total n : Nat)
    (h1 : m + 1 ≤ n) (h2 : n ≤ total) :
    get_line_to_chapter_map [("Metadata", 1, m), (nm, m + 1, total)] n =
      some nm := by
  unfold get_line_to_chapter_map
  have hrev : ([("Metadata", 1, m), (nm, m + 1, total)] :
      List (String × Nat × Nat)).reverse =
      [(nm, m + 1, total), ("Metadata", 1, m)] := by rfl
  rw [hrev, List.find?_cons_of_pos _ (by simp [h1, h2])]
  rfl

theorem line_map_two_meta (nm : String) (m total n : Nat)
    (h1 : 1 ≤ n) (h2 : n ≤ m) :
    get_line_to_chapter_map [("Metadata", 1, m), (nm, m + 1, total)] n =
      some "Metadata" := by
  unfold get_line_to_chapter_map
  have hrev : ([("Metadata", 1, m), (nm, m + 1, total)] :
      List (String × Nat × Nat)).reverse =
      [(nm, m + 1, total), ("Metadata", 1, m)] := by rfl
  rw [hrev, List.find?_cons_of_neg _ (by
    simp only [Bool.and_eq_true, decide_eq_true_eq]
    intro hc
    omega)]
  rw [List.find?_cons_of_pos _ (by simp [h1, h2])]
  rfl

theorem chapter_lines_main (meta body : List String) (hLine : String)
    (M : Nat → Option String) (nm : String)
    (hmeta : ∀ n, 1 ≤ n → n ≤ meta.length → M n = some "Metadata")
    (hrest : ∀ n, meta.length + 1 ≤ n → n ≤ meta.length + body.length + 1 →
      M n = some nm)
    (hnm : nm ≠ "Metadata") :
    (enumFrom 1 (meta ++ hLine :: body)).filterMap
      (fun p => if M p.1 = some nm then some p.2 else none) =
      hLine :: body := by
  rw [enum_split, List.filterMap_append, List.filterMap_cons]
  have hmetapart : (enumFrom 1 meta).filterMap
      (fun p => if M p.1 = some nm then some p.2 else none) = [] := by
    refine List.filterMap_eq_nil_iff.mpr ?_
    intro p hp
    have hb := enumFrom_mem_bounds hp
    rw [hmeta p.1 hb.1 (by omega)]
    rw [if_neg (fun hx => hnm (Option.some.inj hx).symm)]
  have hhead : M (meta.length + 1) = some nm :=
    hrest (meta.length + 1) (le_refl _) (by omega)
  have hbodypart : (enumFrom (meta.length + 2) body).filterMap
      (fun p => if M p.1 = some nm then some p.2 else none) = body := by
    refine filterMap_enum_all body (meta.length + 2) ?_
    intro p hp
    have hb := enumFrom_mem_bounds hp
    rw [hrest p.1 (by omega) (by omega)]
    rw [if_pos rfl]
  rw [hmetapart, hhead, hbodypart, if_pos rfl]
  simp

theorem chapter_lines_metadata (meta body : List String) (hLine : String)
    (M : Nat → Option String) (nm : String)
    (hmeta : ∀ n, 1 ≤ n → n ≤ meta.length → M n = some "Metadata")
    (hrest : ∀ n, meta.length + 1 ≤ n → n ≤ meta.length + body.length + 1 →
      M n = some nm)
    (hnm : nm ≠ "Metadata") :
    (enumFrom 1 (meta ++ hLine :: body)).filterMap
      (fun p => if M p.1 = some "Metadata" then some p.2 else none) =
      meta := by
  rw [enum_split, List.filterMap_append, List.filterMap_cons]
  have hmetapart : (enumFrom 1 meta).filterMap
      (fun p => if M p.1 = some "Metadata" then some p.2 else none) = meta := by
    refine filterMap_enum_all meta 1 ?_
    intro p hp
    have hb := enumFrom_mem_bounds hp
    rw [hmeta p.1 hb.1 (by omega), if_pos rfl]
  have hhead : M (meta.length + 1) = some nm :=
    hrest (meta.length + 1) (le_refl _) (by omega)
  have hbodypart : (enumFrom (meta.length + 2) body).filterMap
      (fun p => if M p.1 = some "Metadata" then some p.2 else none) = [] := by
    refine List.filterMap_eq_nil_iff.mpr ?_
    intro p hp
    have hb := enumFrom_mem_bounds hp
    rw [hrest p.1 (by omega) (by omega)]
    rw [if_neg (fun hx => hnm (Option.some.inj hx))]
  rw [hmetapart, hhead, hbodypart]
  rw [if_neg (fun hx => hnm (Option.some.inj hx))]
  simp

theorem chapter_lines_other (meta body : List String) (hLine : String)
    (M : Nat → Option String) (nm : String)
    (hmeta : ∀ n, 1 ≤ n → n ≤ meta.length → M n = some "Metadata")
    (hrest : ∀ n, meta.length + 1 ≤ n → n ≤ meta.length + body.length + 1 →
      M n = some nm)
    (c : String) (hc1 : c ≠ "Metadata") (hc2 : c ≠ nm) :
    (enumFrom 1 (meta ++ hLine :: body)).filterMap
      (fun p => if M p.1 = some c then some p.2 else none) = [] := by
  rw [enum_split, List.filterMap_append, List.filterMap_cons]
  have hmetapart : (enumFrom 1 meta).filterMap
      (fun p => if M p.1 = some c then some p.2 else none) = [] := by
    refine List.filterMap_eq_nil_iff.mpr ?_
    intro p hp
    have hb := enumFrom_mem_bounds hp
    rw [hmeta p.1 hb.1 (by omega)]
    rw [if_neg (fun hx => hc1 (Option.some.inj hx).symm)]
  have hhead : M (meta.length + 1) = some nm :=
    hrest (meta.length + 1) (le_refl _) (by omega)
  have hbodypart : (enumFrom (meta.length + 2) body).filterMap
      (fun p => if M p.1 = some c then some p.2 else none) = [] := by
    refine List.filterMap_eq_nil_iff.mpr ?_
    intro p hp
    have hb := enumFrom_mem_bounds hp
    rw [hrest p.1 (by omega) (by omega)]
    rw [if_neg (fun hx => hc2 (Option.some.inj hx).symm)]
  rw [hmetapart, hhead, hbodypart]
  rw [if_neg (fun hx => hc2 (Option.some.inj hx).symm)]
  simp

theorem dedupFirst_append_single (L1 L2p L2s : List String) (b : String)
    (hp : ∀ x ∈ L2p, x ∈ L1) (hs : ∀ x ∈ L2s, x ∈ L1) (hb : b ∉ L1) :
    dedupFirst (L1 ++ (L2p ++ b :: L2s)) = dedupFirst L1 ++ [b] := by
  unfold dedupFirst
  rw [dedupFirstAux_append]
  congr 1
  rw [dedupFirstAux_append]
  rw [dedupFirstAux_all_seen L2p _ (fun x hx => by
    simp only [List.mem_append]
    exact Or.inl (hp x hx))]
  simp only [dedupFirstAux, List.nil_append]
  rw [if_neg (fun hc => by
    rcases List.mem_append.mp hc with h | h
    · exact hb (hp b h)
    · rcases List.mem_append.mp h with h | h
      · exact hb h
      · cases h)]
  rw [dedupFirstAux_all_seen L2s _ (fun x hx =>
    List.mem_cons_of_mem _
      (List.mem_append_right _ (List.mem_append_left _ (hs x hx))))]

/-- The heart of the rename analysis: once the two boundary lists are
known to share a common prefix `P` and suffix `Q` around the renamed
chapter's triple — same span, old name versus new name — and neither
name occurs in `P` or `Q`, the chapter-partitioned diff is exactly the
all-removed entry under the old name followed by the all-added entry
under the new name. -/
theorem diff_core (f t old_content new_content : String)
    (A B C : List String) (oldLine newLine oldName newName : String)
    (P Q : List (String × Nat × Nat))
    (h1 : pySplitlines old_content = A ++ oldLine :: (B ++ C))
    (h2 : pySplitlines new_content = A ++ newLine :: (B ++ C))
    (hbs_old : get_chapter_boundaries old_content =
      P ++ (oldName, A.length + 1, A.length + B.length + 1) :: Q)
    (hbs_new : get_chapter_boundaries new_content =
      P ++ (newName, A.length + 1, A.length + B.length + 1) :: Q)
    (hPn : ∀ b ∈ P, b.1 ≠ oldName ∧ b.1 ≠ newName)
    (hQn : ∀ b ∈ Q, b.1 ≠ oldName ∧ b.1 ≠ newName)
    (hQs : ∀ b ∈ Q, A.length + B.length + 2 ≤ b.2.1)
    (h7 : oldName ≠ newName) :
    diff_document_versions f t old_content new_content =
      [(oldName, String.intercalate "\n" (("--- " ++ f) :: ("+++ " ++ t) ::
          ("@@ -" ++ fmtRangeUnified 0 (B.length + 1) ++ " +" ++
            fmtRangeUnified 0 0 ++ " @@") ::
          (oldLine :: B).map (fun l => "-" ++ l))),
       (newName, String.intercalate "\n" (("--- " ++ f) :: ("+++ " ++ t) ::
          ("@@ -" ++ fmtRangeUnified 0 0 ++ " +" ++
            fmtRangeUnified 0 (B.length + 1) ++ " @@") ::
          (newLine :: B).map (fun l => "+" ++ l)))] := by
  have hPo : ∀ b ∈ P, b.1 ≠ oldName := fun b hb => (hPn b hb).1
  have hPne : ∀ b ∈ P, b.1 ≠ newName := fun b hb => (hPn b hb).2
  have hQo : ∀ b ∈ Q, b.1 ≠ oldName := fun b hb => (hQn b hb).1
  have hQne : ∀ b ∈ Q, b.1 ≠ newName := fun b hb => (hQn b hb).2
  have hQlt : ∀ b ∈ Q, ∀ n : Nat, n ≤ A.length + B.length + 1 → n < b.2.1 :=
    fun b hb n hn => by have := hQs b hb; omega
  have hmapO_on : ∀ n, A.length + 1 ≤ n → n ≤ A.length + B.length + 1 →
      get_line_to_chapter_map
        (P ++ (oldName, A.length + 1, A.length + B.length + 1) :: Q) n =
        some oldName :=
    fun n hn1 hn2 =>
      line_map_mid_on P Q oldName _ _ n hn1 hn2 (fun b hb => hQlt b hb n hn2)
  have hmapN_on : ∀ n, A.length + 1 ≤ n → n ≤ A.length + B.length + 1 →
      get_line_to_chapter_map
        (P ++ (newName, A.length + 1, A.length + B.length + 1) :: Q) n =
        some newName :=
    fun n hn1 hn2 =>
      line_map_mid_on P Q newName _ _ n hn1 hn2 (fun b hb => hQlt b hb n hn2)
  have hirr : ∀ n : Nat, n < A.length + 1 ∨ A.length + B.length + 1 < n →
      get_line_to_chapter_map
        (P ++ (oldName, A.length + 1, A.length + B.length + 1) :: Q) n =
      get_line_to_chapter_map
        (P ++ (newName, A.length + 1, A.length + B.length + 1) :: Q) n :=
    fun n hn => line_map_mid_irrel P Q oldName newName _ _ n hn
  have hOO : (enumFrom 1 (A ++ oldLine :: (B ++ C))).filterMap
      (fun p => if get_line_to_chapter_map
          (P ++ (oldName, A.length + 1, A.length + B.length + 1) :: Q) p.1 =
          some oldName then some p.2 else none) = oldLine :: B := by
    rw [enum_split A (B ++ C) oldLine, enumFrom_append B,
      List.filterMap_append, List.filterMap_cons, List.filterMap_append]
    rw [filterMap_enum_none A 1 (fun n hn1 hn2 =>
      line_map_mid_off_ne P Q oldName oldName _ _ n (Or.inl (by omega))
        hPo hQo)]
    rw [hmapO_on (A.length + 1) (le_refl _) (by omega), if_pos rfl]
    rw [filterMap_enum_keep B (A.length + 2) (fun n hn1 hn2 =>
      hmapO_on n (by omega) (by omega))]
    rw [filterMap_enum_none C (A.length + 2 + B.length) (fun n hn1 hn2 =>
      line_map_mid_off_ne P Q oldName oldName _ _ n (Or.inr (by omega))
        hPo hQo)]
    simp
  have hNO : (enumFrom 1 (A ++ newLine :: (B ++ C))).filterMap
      (fun p => if get_line_to_chapter_map
          (P ++ (newName, A.length + 1, A.length + B.length + 1) :: Q) p.1 =
          some oldName then some p.2 else none) = [] := by
    rw [enum_split A (B ++ C) newLine, enumFrom_append B,
      List.filterMap_append, List.filterMap_cons, List.filterMap_append]
    rw [filterMap_enum_none A 1 (fun n hn1 hn2 =>
      line_map_mid_off_ne P Q newName oldName _ _ n (Or.inl (by omega))
        hPo hQo)]
    rw [hmapN_on (A.length + 1) (le_refl _) (by omega),
      if_neg (fun hx => h7 (Option.some.inj hx).symm)]
    rw [filterMap_enum_none B (A.length + 2) (fun n hn1 hn2 => by
      rw [hmapN_on n (by omega) (by omega)]
      exact fun hx => h7 (Option.some.inj hx).symm)]
    rw [filterMap_enum_none C (A.length + 2 + B.length) (fun n hn1 hn2 =>
      line_map_mid_off_ne P Q newName oldName _ _ n (Or.inr (by omega))
        hPo hQo)]
    simp
  have hON : (enumFrom 1 (A ++ oldLine :: (B ++ C))).filterMap
      (fun p => if get_line_to_chapter_map
          (P ++ (oldName, A.length + 1, A.length + B.length + 1) :: Q) p.1 =
          some newName then some p.2 else none) = [] := by
    rw [enum_split A (B ++ C) oldLine, enumFrom_append B,
      List.filterMap_append, List.filterMap_cons, List.filterMap_append]
    rw [filterMap_enum_none A 1 (fun n hn1 hn2 =>
      line_map_mid_off_ne P Q oldName newName _ _ n (Or.inl (by omega))
        hPne hQne)]
    rw [hmapO_on (A.length + 1) (le_refl _) (by omega),
      if_neg (fun hx => h7 (Option.some.inj hx))]
    rw [filterMap_enum_none B (A.length + 2) (fun n hn1 hn2 => by
      rw [hmapO_on n (by omega) (by omega)]
      exact fun hx => h7 (Option.some.inj hx))]
    rw [filterMap_enum_none C (A.length + 2 + B.length) (fun n hn1 hn2 =>
      line_map_mid_off_ne P Q oldName newName _ _ n (Or.inr (by omega))
        hPne hQne)]
    simp
  have hNN : (enumFrom 1 (A ++ newLine :: (B ++ C))).filterMap
      (fun p => if get_line_to_chapter_map
          (P ++ (newName, A.length + 1, A.length + B.length + 1) :: Q) p.1 =
          some newName then some p.2 else none) = newLine :: B := by
    rw [enum_split A (B ++ C) newLine, enumFrom_append B,
      List.filterMap_append, List.filterMap_cons, List.filterMap_append]
    rw [filterMap_enum_none A 1 (fun n hn1 hn2 =>
      line_map_mid_off_ne P Q newName newName _ _ n (Or.inl (by omega))
        hPne hQne)]
    rw [hmapN_on (A.length + 1) (le_refl _) (by omega), if_pos rfl]
    rw [filterMap_enum_keep B (A.length + 2) (fun n hn1 hn2 =>
      hmapN_on n (by omega) (by omega))]
    rw [filterMap_enum_none C (A.length + 2 + B.length) (fun n hn1 hn2 =>
      line_map_mid_off_ne P Q newName newName _ _ n (Or.inr (by omega))
        hPne hQne)]
    simp
  have hOTH : ∀ ch : String, ch ≠ oldName → ch ≠ newName →
      (enumFrom 1 (A ++ oldLine :: (B ++ C))).filterMap
        (fun p => if get_line_to_chapter_map
            (P ++ (oldName, A.length + 1, A.length + B.length + 1) :: Q) p.1 =
            some ch then some p.2 else none) =
      (enumFrom 1 (A ++ newLine :: (B ++ C))).filterMap
        (fun p => if get_line_to_chapter_map
            (P ++ (newName, A.length + 1, A.length + B.length + 1) :: Q) p.1 =
            some ch then some p.2 else none) := by
    intro ch hco hcn
    have hL : (enumFrom 1 (A ++ oldLine :: (B ++ C))).filterMap
        (fun p => if get_line_to_chapter_map
            (P ++ (oldName, A.length + 1, A.length + B.length + 1) :: Q) p.1 =
            some ch then some p.2 else none) =
        (enumFrom 1 A).filterMap
          (fun p => if get_line_to_chapter_map
              (P ++ (newName, A.length + 1, A.length + B.length + 1) :: Q)
              p.1 = some ch then some p.2 else none) ++
        (enumFrom (A.length + 2 + B.length) C).filterMap
          (fun p => if get_line_to_chapter_map
              (P ++ (newName, A.length + 1, A.length + B.length + 1) :: Q)
              p.1 = some ch then some p.2 else none) := by
      rw [enum_split A (B ++ C) oldLine, enumFrom_append B,
        List.filterMap_append, List.filterMap_cons, List.filterMap_append]
      rw [filterMap_enum_congr2 A 1
        (fun n hn1 hn2 => hirr n (Or.inl (by omega)))]
      rw [hmapO_on (A.length + 1) (le_refl _) (by omega),
        if_neg (fun hx => hco (Option.some.inj hx).symm)]
      rw [filterMap_enum_none B (A.length + 2) (fun n hn1 hn2 => by
        rw [hmapO_on n (by omega) (by omega)]
        exact fun hx => hco (Option.some.inj hx).symm)]
      rw [filterMap_enum_congr2 C (A.length + 2 + B.length)
        (fun n hn1 hn2 => hirr n (Or.inr (by omega)))]
      simp
    have hR : (enumFrom 1 (A ++ newLine :: (B ++ C))).filterMap
        (fun p => if get_line_to_chapter_map
            (P ++ (newName, A.length + 1, A.length + B.length + 1) :: Q) p.1 =
            some ch then some p.2 else none) =
        (enumFrom 1 A).filterMap
          (fun p => if get_line_to_chapter_map
              (P ++ (newName, A.length + 1, A.length + B.length + 1) :: Q)
              p.1 = some ch then some p.2 else none) ++
        (enumFrom (A.length + 2 + B.length) C).filterMap
          (fun p => if get_line_to_chapter_map
              (P ++ (newName, A.length + 1, A.length + B.length + 1) :: Q)
              p.1 = some ch then some p.2 else none) := by
      rw [enum_split A (B ++ C) newLine, enumFrom_append B,
        List.filterMap_append, List.filterMap_cons, List.filterMap_append]
      rw [hmapN_on (A.length + 1) (le_refl _) (by omega),
        if_neg (fun hx => hcn (Option.some.inj hx).symm)]
      rw [filterMap_enum_none B (A.length + 2) (fun n hn1 hn2 => by
        rw [hmapN_on n (by omega) (by omega)]
        exact fun hx => hcn (Option.some.inj hx).symm)]
      simp
    rw [hL, hR]
  have holdL1 : oldName ∈
      (P ++ (oldName, A.length + 1, A.length + B.length + 1) :: Q).map
        (fun b => b.1) :=
    List.mem_map.mpr ⟨(oldName, A.length + 1, A.length + B.length + 1),
      List.mem_append_right _ (List.mem_cons_self _ _), rfl⟩
  have hdedup : dedupFirst
      (((P ++ (oldName, A.length + 1, A.length + B.length + 1) :: Q) ++
        (P ++ (newName, A.length + 1, A.length + B.length + 1) :: Q)).map
        (fun b => b.1)) =
      dedupFirst ((P ++ (oldName, A.length + 1, A.length + B.length + 1) :: Q).map
        (fun b => b.1)) ++ [newName] := by
    rw [List.map_append]
    have hmap2 : (P ++ (newName, A.length + 1, A.length + B.length + 1) :: Q).map
        (fun b => (b.1 : String)) =
        P.map (fun b => b.1) ++ newName :: Q.map (fun b => b.1) := by
      rw [List.map_append, List.map_cons]
    rw [hmap2]
    refine dedupFirst_append_single _ _ _ _ ?_ ?_ ?_
    · intro x hx
      rw [List.mem_map] at hx
      obtain ⟨b, hbm, hbx⟩ := hx
      exact List.mem_map.mpr ⟨b, List.mem_append_left _ hbm, hbx⟩
    · intro x hx
      rw [List.mem_map] at hx
      obtain ⟨b, hbm, hbx⟩ := hx
      exact List.mem_map.mpr
        ⟨b, List.mem_append_right _ (List.mem_cons_of_mem _ hbm), hbx⟩
    · intro hmem
      rw [List.mem_map] at hmem
      obtain ⟨b, hbm, hbn⟩ := hmem
      rcases List.mem_append.mp hbm with hbm | hbm
      · exact hPne b hbm hbn
      · rcases List.mem_cons.mp hbm with heq | hbm
        · subst heq
          exact h7 hbn
        · exact hQne b hbm hbn
  have hmemM : oldName ∈ dedupFirst
      ((P ++ (oldName, A.length + 1, A.length + B.length + 1) :: Q).map
        (fun b => b.1)) :=
    (dedupFirstAux_mem_iff _ _ _).mpr ⟨holdL1, by simp⟩
  have hMn : ∀ x ∈ dedupFirst
      ((P ++ (oldName, A.length + 1, A.length + B.length + 1) :: Q).map
        (fun b => b.1)), x ≠ oldName → x ≠ newName := by
    intro x hx hxo
    have hxL1 := ((dedupFirstAux_mem_iff _ _ _).mp hx).1
    rw [List.mem_map] at hxL1
    obtain ⟨b, hbm, rfl⟩ := hxL1
    rcases List.mem_append.mp hbm with hbm | hbm
    · exact hPne b hbm
    · rcases List.mem_cons.mp hbm with heq | hbm
      · subst heq
        exact absurd rfl hxo
      · exact hQne b hbm
  simp only [diff_document_versions]
  rw [hbs_old, hbs_new, h1, h2, hdedup]
  refine filterMap_append_single _ _ oldName newName _ _
    (dedupFirstAux_nodup _ _) hmemM ?_ ?_ ?_
  · dsimp only
    rw [hOO, hNO, unified_diff_del]
    simp
  · intro x hx hxo
    have hxn : x ≠ newName := hMn x hx hxo
    rw [hOTH x hxo hxn, unified_diff_self]
    simp
  · dsimp only
    rw [hON, hNN, unified_diff_ins]
    simp

/-- C5 (amended): renaming a chapter between revisions — same heading
position, same chapter body, different heading text, everything else
unchanged — makes the chapter-partitioned diff emit exactly two
distinct entries, in first-seen order scanning old boundaries before
new boundaries: one under the old chapter name whose diff body consists
entirely of removed (`-`) lines, and one under the new chapter name
consisting entirely of added (`+`) lines — never a single combined
entry.  Neither name may be `"Metadata"` and neither may collide with
another chapter title of the document: renaming to or from a name that
the line-to-chapter maps also assign to other lines merges the entries
(see the counterexample for the `"Metadata"` collision). -/
theorem diff_rename_two_entries
    (A B C : List String) (oldLine newLine oldName newName : String)
    (old_content new_content f t : String)
    (h1 : pySplitlines old_content = A ++ oldLine :: (B ++ C))
    (h2 : pySplitlines new_content = A ++ newLine :: (B ++ C))
    (h3 : ∀ l ∈ B, h2Title? l = none)
    (h4 : ∀ c cs, C = c :: cs → (h2Title? c).isSome = true)
    (h5 : h2Title? oldLine = some oldName)
    (h6 : h2Title? newLine = some newName)
    (h7 : oldName ≠ newName)
    (h8 : oldName ≠ "Metadata")
    (h9 : newName ≠ "Metadata")
    (hA : ∀ l ∈ A, ∀ u, h2Title? l = some u → u ≠ oldName ∧ u ≠ newName)
    (hC : ∀ l ∈ C, ∀ u, h2Title? l = some u → u ≠ oldName ∧ u ≠ newName) :
    diff_document_versions f t old_content new_content =
      [(oldName, String.intercalate "\n" (("--- " ++ f) :: ("+++ " ++ t) ::
          ("@@ -" ++ fmtRangeUnified 0 (B.length + 1) ++ " +" ++
            fmtRangeUnified 0 0 ++ " @@") ::
          (oldLine :: B).map (fun l => "-" ++ l))),
       (newName, String.intercalate "\n" (("--- " ++ f) :: ("+++ " ++ t) ::
          ("@@ -" ++ fmtRangeUnified 0 0 ++ " +" ++
            fmtRangeUnified 0 (B.length + 1) ++ " @@") ::
          (newLine :: B).map (fun l => "+" ++ l)))] := by
  set QC : List (String × Nat) :=
    (enumFrom (A.length + 2 + B.length) C).filterMap
      (fun p => (h2Title? p.2).map (fun u => (u, p.1))) with hQCdef
  have hlen_old : (pySplitlines old_content).length =
      A.length + B.length + C.length + 1 := by
    rw [h1]
    simp only [List.length_append, List.length_cons]
    omega
  have hlen_new : (pySplitlines new_content).length =
      A.length + B.length + C.length + 1 := by
    rw [h2]
    simp only [List.length_append, List.length_cons]
    omega
  have h0_old : (pySplitlines old_content).length ≠ 0 := by
    rw [hlen_old]
    omega
  have h0_new : (pySplitlines new_content).length ≠ 0 := by
    rw [hlen_new]
    omega
  have hpos_old : h2Positions (pySplitlines old_content) =
      h2Positions A ++ (oldName, A.length + 1) :: QC := by
    rw [h1, hQCdef]
    exact h2Positions_split A B C oldLine oldName h3 h5
  have hpos_new : h2Positions (pySplitlines new_content) =
      h2Positions A ++ (newName, A.length + 1) :: QC := by
    rw [h2, hQCdef]
    exact h2Positions_split A B C newLine newName h3 h6
  have hbs_old := get_chapter_boundaries_split h0_old hpos_old
  rw [hlen_old] at hbs_old
  have hbs_new := get_chapter_boundaries_split h0_new hpos_new
  rw [hlen_new] at hbs_new
  have hhead : ∀ nm0 : String,
      chapterSpans (A.length + B.length + C.length + 1)
          ((nm0, A.length + 1) :: QC) =
        (nm0, A.length + 1, A.length + B.length + 1) ::
          chapterSpans (A.length + B.length + C.length + 1) QC := by
    intro nm0
    rcases hCc : C with _ | ⟨c, C'⟩
    · have hqc : QC = [] := by
        rw [hQCdef, hCc]
        rfl
      rw [hqc]
      simp [chapterSpans]
    · obtain ⟨u, hu⟩ : ∃ u, h2Title? c = some u :=
        Option.isSome_iff_exists.mp (h4 c C' hCc)
      have hqc : QC = (u, A.length + 2 + B.length) ::
          (enumFrom (A.length + 2 + B.length + 1) C').filterMap
            (fun p => (h2Title? p.2).map (fun q => (q, p.1))) := by
        rw [hQCdef, hCc]
        show ((A.length + 2 + B.length, c) ::
          enumFrom (A.length + 2 + B.length + 1) C').filterMap _ = _
        rw [List.filterMap_cons]
        rw [hu]
        rfl
      rw [hqc, chapterSpans_cons]
      dsimp only
      have harith : A.length + 2 + B.length - 1 = A.length + B.length + 1 := by
        omega
      rw [harith]
  rw [hhead oldName] at hbs_old
  rw [hhead newName] at hbs_new
  have hPn : ∀ b ∈ (if 1 < ((h2Positions A).map Prod.snd).headD
        (A.length + 1) then
        [("Metadata", 1,
          ((h2Positions A).map Prod.snd).headD (A.length + 1) - 1)]
      else []) ++ spansTo (A.length + 1) (h2Positions A),
      b.1 ≠ oldName ∧ b.1 ≠ newName := by
    intro b hb
    rcases List.mem_append.mp hb with hb | hb
    · by_cases hif : 1 < ((h2Positions A).map Prod.snd).headD (A.length + 1)
      · rw [if_pos hif] at hb
        rw [List.mem_singleton] at hb
        subst hb
        exact ⟨fun hc => h8 hc.symm, fun hc => h9 hc.symm⟩
      · rw [if_neg hif] at hb
        cases hb
    · have hmem := spansTo_mem _ _ _ hb
      obtain ⟨⟨l, hl, hlt⟩, _⟩ := heading_list_mem hmem
      exact hA l hl b.1 hlt
  have hQn : ∀ b ∈ chapterSpans (A.length + B.length + C.length + 1) QC,
      b.1 ≠ oldName ∧ b.1 ≠ newName := by
    intro b hb
    have hmem := chapterSpans_mem _ _ _ hb
    rw [hQCdef] at hmem
    obtain ⟨⟨l, hl, hlt⟩, _⟩ := heading_list_mem hmem
    exact hC l hl b.1 hlt
  have hQs : ∀ b ∈ chapterSpans (A.length + B.length + C.length + 1) QC,
      A.length + B.length + 2 ≤ b.2.1 := by
    intro b hb
    have hmem := chapterSpans_mem _ _ _ hb
    rw [hQCdef] at hmem
    have hk : A.length + 2 + B.length ≤ b.2.1 := (heading_list_mem hmem).2
    omega
  exact diff_core f t old_content new_content A B C oldLine newLine
    oldName newName _ _ h1 h2 hbs_old hbs_new hPn hQn hQs h7

/-- Witness for C5: renaming chapter `Old` to `New` in the middle of a
document that also has a leading metadata line and two other chapters
(`Intro` before, `End` after, both unchanged); the diff has exactly the
two all-removed / all-added entries, in that order. -/
theorem diff_rename_two_entries_witness :
    pySplitlines "m\n## Intro\ni\n## Old\nsame\n## End\ne" =
      ["m", "## Intro", "i"] ++ "## Old" :: (["same"] ++ ["## End", "e"]) ∧
    h2Title? "## Old" = some "Old" ∧
    h2Title? "## New" = some "New" ∧
    diff_document_versions "7_v1.md" "7_v2.md"
        "m\n## Intro\ni\n## Old\nsame\n## End\ne"
        "m\n## Intro\ni\n## New\nsame\n## End\ne" =
      [("Old", "--- 7_v1.md\n+++ 7_v2.md\n@@ -1,2 +0,0 @@\n-## Old\n-same"),
       ("New", "--- 7_v1.md\n+++ 7_v2.md\n@@ -0,0 +1,2 @@\n+## New\n+same")] := by
  refine ⟨rfl, rfl, rfl, ?_⟩
  have h := diff_rename_two_entries ["m", "## Intro", "i"] ["same"]
    ["## End", "e"] "## Old" "## New" "Old" "New"
    "m\n## Intro\ni\n## Old\nsame\n## End\ne"
    "m\n## Intro\ni\n## New\nsame\n## End\ne" "7_v1.md" "7_v2.md"
    rfl rfl
    (by intro l hl; fin_cases hl; rfl)
    (by intro c cs hcc; cases hcc; rfl)
    rfl rfl (by decide) (by decide) (by decide)
    (by
      intro l hl u hu
      fin_cases hl
      · exact Option.noConfusion (show (none : Option String) = some u from hu)
      · have hx : (some "Intro" : Option String) = some u := hu
        cases hx
        exact ⟨by decide, by decide⟩
      · exact Option.noConfusion (show (none : Option String) = some u from hu))
    (by
      intro l hl u hu
      fin_cases hl
      · have hx : (some "End" : Option String) = some u := hu
        cases hx
        exact ⟨by decide, by decide⟩
      · exact Option.noConfusion (show (none : Option String) = some u from hu))
  rw [h]
  rfl

/-- Counterexample to C5 as stated: renaming a chapter to
`"## Metadata"` under a non-empty leading block is a rename in the
claim's scope (same body `same`, different heading text), yet the diff
does not contain an all-added entry under the new name.  The renamed
chapter's lines merge with the synthetic `Metadata` chapter, so the
`Metadata` entry carries the context line ` m` beside its added lines,
and it comes first — `Metadata` is the first name seen scanning the old
boundaries — so the all-removed `Old` entry is not first either. -/
theorem diff_rename_metadata_counterexample :
    h2Title? "## Old" = some "Old" ∧
    h2Title? "## Metadata" = some "Metadata" ∧
    diff_document_versions "1_v1.md" "1_v2.md" "m\n## Old\nsame"
        "m\n## Metadata\nsame" =
      [("Metadata",
        "--- 1_v1.md\n+++ 1_v2.md\n@@ -1 +1,3 @@\n m\n+## Metadata\n+same"),
       ("Old",
        "--- 1_v1.md\n+++ 1_v2.md\n@@ -1,2 +0,0 @@\n-## Old\n-same")] := by
  refine ⟨rfl, rfl, ?_⟩
  have hl : lcs ["m"] ["m", "## Metadata", "same"] = ["m"] := by
    simp [lcs]
  have hu : unitOps 0 0 ["m"] ["m", "## Metadata", "same"] ["m"] =
      [⟨.eq, 0, 1, 0, 1⟩, ⟨.ins, 1, 1, 1, 2⟩, ⟨.ins, 1, 1, 2, 3⟩] := by
    simp [unitOps, delUnits, insUnits]
  have hm : mergeOps
      [⟨.eq, 0, 1, 0, 1⟩, ⟨.ins, 1, 1, 1, 2⟩, ⟨.ins, 1, 1, 2, 3⟩] =
      [⟨.eq, 0, 1, 0, 1⟩, ⟨.ins, 1, 1, 1, 3⟩] := by
    simp [mergeOps]
  have hops : get_opcodes ["m"] ["m", "## Metadata", "same"] =
      [⟨.eq, 0, 1, 0, 1⟩, ⟨.ins, 1, 1, 1, 3⟩] := by
    unfold get_opcodes
    rw [hl, hu, hm]
  have hud1 : unified_diff ["m"] ["m", "## Metadata", "same"]
      "1_v1.md" "1_v2.md" =
      ["--- 1_v1.md", "+++ 1_v2.md", "@@ -1 +1,3 @@", " m", "+## Metadata",
        "+same"] := by
    unfold unified_diff
    rw [hops]
    rfl
  have hud2 : unified_diff ["## Old", "same"] [] "1_v1.md" "1_v2.md" =
      ["--- 1_v1.md", "+++ 1_v2.md", "@@ -1,2 +0,0 @@", "-## Old",
        "-same"] := by
    rw [unified_diff_del]
    rfl
  simp only [diff_document_versions]
  rw [show get_chapter_boundaries "m\n## Old\nsame" =
    [("Metadata", 1, 1), ("Old", 2, 3)] from rfl]
  rw [show get_chapter_boundaries "m\n## Metadata\nsame" =
    [("Metadata", 1, 1), ("Metadata", 2, 3)] from rfl]
  rw [show pySplitlines "m\n## Old\nsame" = ["m", "## Old", "same"] from rfl]
  rw [show pySplitlines "m\n## Metadata\nsame" =
    ["m", "## Metadata", "same"] from rfl]
  rw [show dedupFirst (List.map (fun b => b.1)
      ([(("Metadata" : String), 1, 1), ("Old", 2, 3)] ++
        [("Metadata", 1, 1), ("Metadata", 2, 3)])) =
    ["Metadata", "Old"] from rfl]
  rw [List.filterMap_cons, List.filterMap_cons, List.filterMap_nil]
  rw [show (enumFrom 1 ["m", "## Old", "same"]).filterMap (fun p =>
      if get_line_to_chapter_map [("Metadata", 1, 1), ("Old", 2, 3)] p.1 =
        some "Metadata" then some p.2 else none) = ["m"] from rfl]
  rw [show (enumFrom 1 ["m", "## Metadata", "same"]).filterMap (fun p =>
      if get_line_to_chapter_map
          [("Metadata", 1, 1), ("Metadata", 2, 3)] p.1 =
        some "Metadata" then some p.2 else none) =
    ["m", "## Metadata", "same"] from rfl]
  rw [show (enumFrom 1 ["m", "## Old", "same"]).filterMap (fun p =>
      if get_line_to_chapter_map [("Metadata", 1, 1), ("Old", 2, 3)] p.1 =
        some "Old" then some p.2 else none) = ["## Old", "same"] from rfl]
  rw [show (enumFrom 1 ["m", "## Metadata", "same"]).filterMap (fun p =>
      if get_line_to_chapter_map
          [("Metadata", 1, 1), ("Metadata", 2, 3)] p.1 =
        some "Old" then some p.2 else none) = ([] : List String) from rfl]
  rw [hud1, hud2]
  rfl
end Folios
